import Mathlib

/-!
Verification development for the La Mer household inventory tracker
(`lamer.py`).  The Python program is shallowly embedded: strings are
`String` (manipulated through executable character-list helpers that model
Python's `str` methods), monetary amounts parsed from decimal literals are
modelled as `ℚ`, calendar dates as a `Date` structure with proleptic
Gregorian arithmetic (as `datetime.date` uses), and code that can raise
(`float`/`int` conversion, `datetime.strptime`, `date.replace`, missing
pandas columns) returns `Except Err`.  Item identifiers, produced in
Python by `generate_product_id` from a hash of name and timestamp and
assumed unique, are modelled as a threaded fresh `Nat` counter.
-/

/-! ## Character-list string helpers (models of Python `str` methods) -/

def fromChars (l : List Char) : String := ⟨l⟩

/-- Model of Python `s.split(sep)` (non-overlapping, left to right) for a
nonempty separator, written with explicit fuel so that it is structural. -/
def splitChars (pat : List Char) : Nat → List Char → List Char → List (List Char)
  | _, cur, [] => [cur.reverse]
  | 0, cur, s => [cur.reverse ++ s]
  | fuel+1, cur, c :: rest =>
    if pat.isPrefixOf (c :: rest) then
      cur.reverse :: splitChars pat fuel [] ((c :: rest).drop pat.length)
    else
      splitChars pat fuel (c :: cur) rest

def strSplitOn (s pat : String) : List String :=
  if pat.data = [] then [s]
  else (splitChars pat.data s.data.length [] s.data).map fromChars

/-- Model of Python `sep in s` (substring containment). -/
def strContains (s pat : String) : Bool :=
  match strSplitOn s pat with
  | _ :: _ :: _ => true
  | _ => false

/-- Model of Python `s.strip()`. -/
def myTrim (s : String) : String :=
  fromChars (((s.data.dropWhile Char.isWhitespace).reverse.dropWhile
    Char.isWhitespace).reverse)

/-- Model of Python `s.startswith(pat)`. -/
def myStartsWith (s pat : String) : Bool := pat.data.isPrefixOf s.data

/-- Model of Python character slicing `s[:n]`. -/
def strTake (s : String) (n : Nat) : String := fromChars (s.data.take n)

/-- Model of Python character slicing `s[n:]`. -/
def strDrop (s : String) (n : Nat) : String := fromChars (s.data.drop n)

/-- Model of Python `s.lower()` (ASCII letters; the hints and account
names the program compares are ASCII). -/
def strLower (s : String) : String := fromChars (s.data.map Char.toLower)

/-- Model of Python `s.replace(pat, rep)` for a nonempty pattern
(non-overlapping, left to right), with explicit fuel. -/
def replChars (pat rep : List Char) : Nat → List Char → List Char
  | _, [] => []
  | 0, s => s
  | fuel+1, c :: rest =>
    if pat ≠ [] ∧ pat.isPrefixOf (c :: rest) then
      rep ++ replChars pat rep fuel ((c :: rest).drop pat.length)
    else
      c :: replChars pat rep fuel rest

def strReplace (s pat rep : String) : String :=
  if pat.data = [] then s
  else fromChars (replChars pat.data rep.data s.data.length s.data)

/-- Model of Python `sep.join(parts)` restricted to what the program
uses (`'\n'.join`). -/
def strJoin (sep : String) (parts : List String) : String :=
  fromChars (sep.data.intercalate (parts.map (fun p => p.data)))

/-- Model of Python `pat in s` for a substring test used with `in` on
lowercased strings. -/
def listInfix (pat l : List Char) : Bool :=
  match l with
  | [] => pat.isEmpty
  | _ :: rest => pat.isPrefixOf l || listInfix pat rest

def strInfix (pat s : String) : Bool := listInfix pat.data s.data

/-- Model of Python `s.split(sep, 1)` (split once). -/
def strSplitOnce (s sep : String) : List String :=
  match strSplitOn s sep with
  | [] => [s]
  | h :: t => if t.isEmpty then [h] else [h, strJoin sep t]

/-! ## Numbers parsed from text -/

def digitsToNat (ds : List Char) : Nat :=
  ds.foldl (fun a c => a * 10 + (c.toNat - '0'.toNat)) 0

/-- Decidable front end of the model of Python `float(s)`: the sign, the
integer-part digits value, the fraction digits value and the number of
fraction digits.  Python `float` also accepts exponents and special
forms the program never feeds it; plain decimal literals are modelled. -/
def pyFloatParse (t : List Char) : Option (Bool × Nat × Nat × Nat) :=
  let sr : Bool × List Char :=
    match t with
    | '+' :: r => (false, r)
    | '-' :: r => (true, r)
    | r => (false, r)
  let ip := sr.2.takeWhile Char.isDigit
  let rest := sr.2.dropWhile Char.isDigit
  match rest with
  | [] => if ip.isEmpty then none else some (sr.1, digitsToNat ip, 0, 0)
  | '.' :: fr =>
    let fp := fr.takeWhile Char.isDigit
    if (fr.dropWhile Char.isDigit).isEmpty = false then none
    else if ip.isEmpty && fp.isEmpty then none
    else some (sr.1, digitsToNat ip, digitsToNat fp, fp.length)
  | _ => none

/-- The rational value of a parsed decimal literal. -/
def pyFloatVal (neg : Bool) (ip f k : Nat) : ℚ :=
  let mag : ℚ := if k = 0 then (ip : ℚ) else (ip : ℚ) + (f : ℚ) / 10 ^ k
  if neg then -mag else mag

/-- Model of Python `float(s)` on the decimal literals the mini-language
uses; `none` models the `ValueError` raised on malformed input. -/
def pyFloat (s : String) : Option ℚ :=
  (pyFloatParse (myTrim s).data).map fun t => pyFloatVal t.1 t.2.1 t.2.2.1 t.2.2.2

/-- Model of Python `int(s)` on the nonnegative numerals the program
feeds it (day-of-month and `MMDD` anchors); any other input makes the
Python call (or the `date.replace` right after it) raise, which the
callers surface as the same aborted run. -/
def pyNat (s : String) : Option Nat :=
  let t := (myTrim s).data
  if t.isEmpty = false && t.all Char.isDigit then some (digitsToNat t) else none

/-! ## Errors (§7 of the spec: the ways a submitted block can abort) -/

inductive Err where
  | missingRate : Err
  | indexError : Err
  | valueError : Err
  | zeroDiv : Err
  | emptyResult : Err
deriving DecidableEq

instance {ε α : Type} [DecidableEq ε] [DecidableEq α] : DecidableEq (Except ε α) :=
  fun a b =>
    match a, b with
    | .error e, .error f =>
      if h : e = f then isTrue (by rw [h]) else isFalse (by intro hh; cases hh; exact h rfl)
    | .error _, .ok _ => isFalse (by intro hh; cases hh)
    | .ok _, .error _ => isFalse (by intro hh; cases hh)
    | .ok x, .ok y =>
      if h : x = y then isTrue (by rw [h]) else isFalse (by intro hh; cases hh; exact h rfl)

/-! ## Dates (model of `datetime.date`, proleptic Gregorian calendar) -/

def isLeap (y : Nat) : Bool := (y % 4 = 0 && y % 100 ≠ 0) || y % 400 = 0

def daysInMonth (y m : Nat) : Nat :=
  if m = 2 then (if isLeap y then 29 else 28)
  else if m = 4 ∨ m = 6 ∨ m = 9 ∨ m = 11 then 30
  else 31

structure Date where
  year : Nat
  month : Nat
  day : Nat
deriving DecidableEq

/-- The dates `datetime.date` can represent. -/
def Date.validB (y m d : Nat) : Bool :=
  1 ≤ y && y ≤ 9999 && 1 ≤ m && m ≤ 12 && 1 ≤ d && d ≤ daysInMonth y m

def Date.Valid (dt : Date) : Prop := Date.validB dt.year dt.month dt.day = true

/-- Model of Python `date` comparison `a <= b` (lexicographic on year,
month, day, which agrees with chronological order on valid dates). -/
def dle (a b : Date) : Bool :=
  a.year < b.year ||
    (a.year = b.year &&
      (a.month < b.month || (a.month = b.month && a.day ≤ b.day)))

/-- The day after a calendar date. -/
def nextDay (d : Date) : Date :=
  if d.day < daysInMonth d.year d.month then ⟨d.year, d.month, d.day + 1⟩
  else if d.month < 12 then ⟨d.year, d.month + 1, 1⟩
  else ⟨d.year + 1, 1, 1⟩

/-- Model of Python `date + timedelta(days = n)`. -/
def addDays (d : Date) : Nat → Date
  | 0 => d
  | n+1 => addDays (nextDay d) n

/-- Days before the first day of year `y` (proleptic Gregorian), as
`datetime.date.toordinal` counts them. -/
def daysBeforeYear (y : Nat) : Nat :=
  365 * (y - 1) + (y - 1) / 4 - (y - 1) / 100 + (y - 1) / 400

def daysBeforeMonth (y m : Nat) : Nat :=
  ((List.range (m - 1)).map (fun i => daysInMonth y (i + 1))).sum

/-- Model of `datetime.date.toordinal`; differences of ordinals are what
`(a - b).days` computes. -/
def ordinal (d : Date) : Int :=
  (daysBeforeYear d.year + daysBeforeMonth d.year d.month + d.day : Nat)

/-- Model of Python `d.replace(day = day)`: keeps year and month, raises
`ValueError` (here `none`) when the result is not a valid date. -/
def replaceDay (d : Date) (day : Nat) : Option Date :=
  if Date.validB d.year d.month day then some ⟨d.year, d.month, day⟩ else none

/-- Model of Python `d.replace(month = m, day = day)`. -/
def replaceMonthDay (d : Date) (m day : Nat) : Option Date :=
  if Date.validB d.year m day then some ⟨d.year, m, day⟩ else none

/-- Model of Python `d.replace(year = y)`. -/
def replaceYear (d : Date) (y : Nat) : Option Date :=
  if Date.validB y d.month d.day then some ⟨y, d.month, d.day⟩ else none

/-- Model of Python `d.replace(year = y, month = m, day = day)`. -/
def replaceYMD (_ : Date) (y m day : Nat) : Option Date :=
  if Date.validB y m day then some ⟨y, m, day⟩ else none

def digitChar (n : Nat) : Char := Char.ofNat ('0'.toNat + n)

def natToChars : Nat → Nat → List Char
  | 0, _ => []
  | fuel+1, n =>
    if n < 10 then [digitChar n]
    else natToChars fuel (n / 10) ++ [digitChar (n % 10)]

/-- A numeral zero-padded on the left to `k` digits, as `strftime`'s
`%Y`/`%m`/`%d` print date components. -/
def padNat (k n : Nat) : List Char :=
  let ds := natToChars (n + 1) n
  List.replicate (k - ds.length) '0' ++ ds

/-- Model of `date.strftime('%Y-%m-%d')`. -/
def dateToStr (d : Date) : String :=
  fromChars (padNat 4 d.year ++ '-' :: padNat 2 d.month ++ '-' :: padNat 2 d.day)

/-- Model of `datetime.strptime(s, '%Y-%m-%d').date()`: three dash-
separated digit groups forming a valid calendar date; anything else
raises `ValueError`. -/
def parseDate (s : String) : Except Err Date :=
  match strSplitOn s "-" with
  | [ys, ms, ds] =>
    if ys.data.isEmpty = false && ys.data.all Char.isDigit && ys.data.length ≤ 4 &&
        ms.data.isEmpty = false && ms.data.all Char.isDigit && ms.data.length ≤ 2 &&
        ds.data.isEmpty = false && ds.data.all Char.isDigit && ds.data.length ≤ 2 then
      if Date.validB (digitsToNat ys.data) (digitsToNat ms.data) (digitsToNat ds.data) then
        .ok ⟨digitsToNat ys.data, digitsToNat ms.data, digitsToNat ds.data⟩
      else .error .valueError
    else .error .valueError
  | _ => .error .valueError

/-! ## Exchange rates (`get_exchange_rate`, `to_eur`) -/

def BASE_CURRENCY : String := "EUR"

structure RateRow where
  month : String
  rates : List (String × ℚ)
deriving DecidableEq

/-- `get_exchange_rate(currency, date_str)`, over an explicit snapshot
table (the Python reads it from `exchange_rates.csv`).  The pandas row
filter keeps the rows whose `month` column equals the date's year-month;
on an empty filter result the code takes `iloc[-1]` (the last row,
`IndexError` when the table is empty); a missing currency column raises
(`KeyError`, the spec's `MissingRateError`). -/
def get_exchange_rate (table : List RateRow) (currency date_str : String) :
    Except Err ℚ :=
  match (table.filter (fun r => r.month == strTake date_str 7)).head? with
  | some row =>
    match row.rates.lookup currency with
    | some q => .ok q
    | none => .error .missingRate
  | none =>
    match table.getLast? with
    | some row =>
      match row.rates.lookup currency with
      | some q => .ok q
      | none => .error .missingRate
    | none => .error .indexError

/-- `to_eur(amount, currency, purchase_date)`: the base currency passes
through untouched, anything else is divided by the looked-up rate
(Python float division by zero raises `ZeroDivisionError`). -/
def to_eur (table : List RateRow) (amount : ℚ) (currency purchase_date : String) :
    Except Err ℚ :=
  if currency = BASE_CURRENCY then .ok amount
  else
    match get_exchange_rate table currency purchase_date with
    | .error e => .error e
    | .ok r => if r = 0 then .error .zeroDiv else .ok (amount / r)

/-- Modelled from the spec (§4.1), for comparison with the code: the rate
is taken from "the snapshot row whose month equals `date`'s year-month;
if absent ... the most recently defined snapshot row ('most recent'
means last row, not nearest-by-date)". -/
def rateSpec (table : List RateRow) (currency date_str : String) : Except Err ℚ :=
  match table.find? (fun r => r.month == strTake date_str 7) with
  | some row =>
    match row.rates.lookup currency with
    | some q => .ok q
    | none => .error .missingRate
  | none =>
    match table.getLast? with
    | some row =>
      match row.rates.lookup currency with
      | some q => .ok q
      | none => .error .missingRate
    | none => .error .indexError

/-! ## Purchase-block parser (`parse_input_text`) and the 入库 submit handler -/

/-- An inventory record with the columns of `inventory.csv` (an item in
state `IN_INVENTORY`).  `id` is the fresh-counter model of
`generate_product_id`. -/
structure PItem where
  id : Nat
  name : String
  category : String
  actualPrice : ℚ
  standardPrice : ℚ
  currency : String
  purchaseDate : String
  source : String
  account : String
  invoiceName : String
  discount : ℚ
  inTransit : Bool
  purchaseRate : ℚ
deriving DecidableEq

/-- A history record (`history.csv`): an archived item in state
`CHECKED_OUT` with the extra checkout columns. -/
structure HistItem where
  item : PItem
  checkoutDate : String
  utilization : Int
  checkoutMode : String
  daysInService : Int
deriving DecidableEq

/-- A product-catalog entry (`products_global.json` values). -/
structure Product where
  name : String
  standardPrice : ℚ
  currency : String
  category : String
  purchaseCount : Nat
  buyout : Bool
deriving DecidableEq

/-- A parsed deposit-return event (`deposit_returns` list entries). -/
structure DepReturn where
  count : Nat
  amount : ℚ
  date : String
deriving DecidableEq

/-- Model of assigning into a Python dict: overwrite the key in place,
or append it (dicts preserve insertion order). -/
def dictSet {α : Type} (l : List (String × α)) (k : String) (v : α) :
    List (String × α) :=
  if l.any (fun p => p.1 == k) then
    l.map (fun p => if p.1 == k then (p.1, v) else p)
  else l ++ [(k, v)]

/-- Model of `deposits_db[name] = deposits_db.get(name, 0) + 1`. -/
def bumpDeposit (l : List (String × Nat)) (k : String) : List (String × Nat) :=
  if l.any (fun p => p.1 == k) then
    l.map (fun p => if p.1 == k then (p.1, p.2 + 1) else p)
  else l ++ [(k, 1)]

/-- Model of `metadata.get(key, dflt)`. -/
def metaGetD (m : List (String × String)) (k dflt : String) : String :=
  match m.lookup k with
  | some v => v
  | none => dflt

/-- Model of the first match of the regex `\((\d+)\)` (a parenthesised
run of digits), as `re.search` finds it: `none` when there is none. -/
def parenScan : Nat → List Char → Option Nat
  | _, [] => none
  | 0, _ => none
  | fuel+1, c :: rest =>
    if c = '(' then
      match rest.takeWhile Char.isDigit, rest.drop (rest.takeWhile Char.isDigit).length with
      | d :: ds, ')' :: _ => some (digitsToNat (d :: ds))
      | _, _ => parenScan fuel rest
    else parenScan fuel rest

def findParenCount (s : String) : Option Nat := parenScan s.data.length s.data

/-- The mutable state threaded through the `parse_input_text` line loop. -/
structure ParseSt where
  inMeta : Bool
  meta : List (String × String)
  category : String
  items : List PItem
  depositReturns : List DepReturn
  products : List (String × Product)
  deposits : List (String × Nat)
  counter : Nat
deriving DecidableEq

/-- The deposit-return branch of the line loop (`Pfand ... << ...`):
`float` on the text after `<<` (raising aborts the block), then the
first `(N)` group on the left side; without one the line contributes
nothing. -/
def handlePfand (todayStr : String) (st : ParseSt) (p0 p1 : String) :
    Except Err ParseSt :=
  let leftPart := myTrim p0
  match pyFloat (myTrim p1) with
  | none => .error .valueError
  | some amount =>
    match findParenCount leftPart with
    | some n =>
      .ok { st with
            depositReturns := st.depositReturns ++
              [⟨n, amount, metaGetD st.meta "日期" todayStr⟩] }
    | none => .ok st

/-- The purchase-line branch of the line loop (`... >> ...`): optional
`invoice :: name` on the left (prefixed with the 入金 metadata when that
is a nonempty string), single price or `standard :: actual` on the
right, discount as the difference, exchange rate resolved at parse time,
deposit ledger bumped for deposit-bearing names, catalog entry created
for new names. -/
def handleItem (todayStr : String) (table : List RateRow) (st : ParseSt)
    (p0 p1 : String) : Except Err ParseSt :=
  let leftPart := myTrim p0
  let rightPart := myTrim p1
  let inv_prod : String × String :=
    if strContains leftPart "::" then
      match strSplitOn leftPart "::" with
      | i0 :: i1 :: _ =>
        let invoice0 := myTrim i0
        let invoice :=
          match st.meta.lookup "入金" with
          | some v => if v = "" then invoice0 else v ++ "_" ++ invoice0
          | none => invoice0
        (invoice, myTrim i1)
      | _ => ("", leftPart)
    else ("", leftPart)
  let prices : Option (ℚ × ℚ) :=
    if strContains rightPart "::" then
      match strSplitOn rightPart "::" with
      | r0 :: r1 :: _ =>
        match pyFloat (myTrim r0), pyFloat (myTrim r1) with
        | some s, some a => some (s, a)
        | _, _ => none
      | _ => none
    else
      match pyFloat rightPart with
      | some p => some (p, p)
      | none => none
  match prices with
  | none => .error .valueError
  | some (standard_price, actual_price) =>
    let currency := metaGetD st.meta "币种" "EUR"
    let purchase_date := metaGetD st.meta "日期" todayStr
    match get_exchange_rate table currency purchase_date with
    | .error e => .error e
    | .ok purchase_rate =>
      let product_name := inv_prod.2
      let item : PItem :=
        { id := st.counter, name := product_name, category := st.category,
          actualPrice := actual_price, standardPrice := standard_price,
          currency := currency, purchaseDate := purchase_date,
          source := metaGetD st.meta "入金" "",
          account := metaGetD st.meta "出金" "",
          invoiceName := inv_prod.1,
          discount := standard_price - actual_price,
          inTransit := false, purchaseRate := purchase_rate }
      let deposits' :=
        if strInfix "pfand" (strLower product_name) ||
            strLower st.category == "pfand" then
          bumpDeposit st.deposits product_name
        else st.deposits
      let products' :=
        if (st.products.lookup product_name).isNone then
          st.products ++ [(product_name,
            ⟨product_name, standard_price, currency, st.category, 0, true⟩)]
        else st.products
      .ok { st with
            items := st.items ++ [item], deposits := deposits',
            products := products', counter := st.counter + 1 }

/-- One iteration of the `parse_input_text` line loop, with the source's
branch order: `---` toggle, metadata key：value, `## ` category header,
`Pfand ... << ...` deposit return, `... >> ...` purchase line, and a
silent skip for everything else. -/
def parseLine (todayStr : String) (table : List RateRow) (st : ParseSt)
    (raw : String) : Except Err ParseSt :=
  let line := myTrim raw
  if line = "---" then .ok { st with inMeta := !st.inMeta }
  else if st.inMeta then
    if strContains line "：" then
      match strSplitOnce line "：" with
      | [k, v] => .ok { st with meta := dictSet st.meta (myTrim k) (myTrim v) }
      | _ => .ok st
    else .ok st
  else if myStartsWith line "## " then
    .ok { st with category := myTrim (strDrop line 3) }
  else if myStartsWith line "Pfand" && strContains line "<<" then
    match strSplitOn line "<<" with
    | p0 :: p1 :: _ => handlePfand todayStr st p0 p1
    | _ => .ok st
  else
    match strSplitOn line ">>" with
    | p0 :: p1 :: _ => handleItem todayStr table st p0 p1
    | _ => .ok st

def parseLines (todayStr : String) (table : List RateRow) :
    List String → ParseSt → Except Err ParseSt
  | [], st => .ok st
  | l :: ls, st =>
    match parseLine todayStr table st l with
    | .error e => .error e
    | .ok st' => parseLines todayStr table ls st'

/-- The result of `parse_input_text`: the Python function returns
`(items, products_db, deposit_returns)` and mutates `deposits_db` in
place; the mutated ledger and the threaded id counter are returned here
explicitly. -/
structure PRes where
  items : List PItem
  products : List (String × Product)
  depositReturns : List DepReturn
  deposits : List (String × Nat)
  counter : Nat
deriving DecidableEq

/-- `parse_input_text(text, products_db, deposits_db)`.  `todayStr` is
`datetime.now().strftime('%Y-%m-%d')` (the metadata date default) and
`table` the exchange-rate snapshot the rate lookups read. -/
def parse_input_text (todayStr : String) (table : List RateRow)
    (products_db : List (String × Product)) (deposits_db : List (String × Nat))
    (counter : Nat) (text : String) : Except Err PRes :=
  match parseLines todayStr table (strSplitOn (myTrim text) "\n")
      ⟨false, [], "", [], [], products_db, deposits_db, counter⟩ with
  | .error e => .error e
  | .ok st => .ok ⟨st.items, st.products, st.depositReturns, st.deposits, st.counter⟩

/-- The record-store state the 入库 submit handler reads and writes. -/
structure Store where
  inv : List PItem
  hist : List HistItem
  products : List (String × Product)
  categories : List String
  accounts : List String
  deposits : List (String × Nat)
  counter : Nat
deriving DecidableEq

/-- Model of `if x and x not in l: l.append(x)`. -/
def addIfAbsent (l : List String) (s : String) : List String :=
  if s ≠ "" ∧ s ∉ l then l ++ [s] else l

/-- Model of `products_db[name]['purchaseCount'] += 1` (guarded in the
source by `name in products_db`). -/
def bumpPurchaseCount (ps : List (String × Product)) (name : String) :
    List (String × Product) :=
  ps.map (fun p => if p.1 == name then
    (p.1, { p.2 with purchaseCount := p.2.purchaseCount + 1 }) else p)

/-- The 确认入库 button handler: parse the block; with no parsed items
show an error and persist nothing; otherwise append the items to
inventory, bump catalog purchase counts, register new accounts and
categories, and save the parser's deposit ledger and the (unmodified)
history.  The parsed `deposit_returns` are read only to build the
success message: no inventory transition and no ledger decrement is
derived from them. -/
def submit_inbound (todayStr : String) (table : List RateRow) (store : Store)
    (text : String) : Except Err Store :=
  match parse_input_text todayStr table store.products store.deposits
      store.counter text with
  | .error e => .error e
  | .ok res =>
    if res.items.isEmpty then .error .emptyResult
    else
      let products1 := res.items.foldl (fun ps it => bumpPurchaseCount ps it.name)
        res.products
      let accounts1 := res.items.foldl
        (fun ac it => addIfAbsent (addIfAbsent ac it.source) it.account)
        store.accounts
      let categories1 := res.items.foldl (fun cs it => addIfAbsent cs it.category)
        store.categories
      .ok { inv := store.inv ++ res.items, hist := store.hist,
             products := products1, categories := categories1,
             accounts := accounts1, deposits := res.deposits,
             counter := res.counter }

/-! ## Quick-input expansion (`expand_quick_input`) -/

/-- A regex word character `\w` (the ASCII fragment, which is what the
program's hints use). -/
def isWordChar (c : Char) : Bool := c.isAlphanum || c = '_'

/-- The capture groups of the successive matches of `re.finditer(r'\$(\w+)',
line)`, scanning left to right without overlap, with explicit fuel. -/
def dollarScan : Nat → List Char → List String
  | _, [] => []
  | 0, _ => []
  | fuel+1, c :: rest =>
    if c = '$' then
      match rest.takeWhile isWordChar with
      | [] => dollarScan fuel rest
      | d :: ds => fromChars (d :: ds) :: dollarScan fuel (rest.drop (d :: ds).length)
    else dollarScan fuel rest

def dollarTokens (line : String) : List String := dollarScan line.data.length line.data

/-- The first account whose lowercased form starts with the lowercased
hint (`account.lower().startswith(hint)` with first-match `break`). -/
def firstMatchAccount (accounts : List String) (hint : String) : Option String :=
  accounts.find? (fun a => myStartsWith (strLower a) (strLower hint))

/-- One `finditer` match of the `$` branch: a matching account rewrites
`expanded_line` from scratch as `line.replace('$' + hint, account)` — the
accumulated value is overwritten, not extended; no match keeps the
accumulated value. -/
def dollarStep (accounts : List String) (line acc tok : String) : String :=
  match firstMatchAccount accounts tok with
  | some account => strReplace line ("$" ++ tok) account
  | none => acc

/-- The `$` branch of the per-line loop. -/
def dollarExpand (accounts : List String) (line : String) : String :=
  if line.data.contains '$' && !accounts.isEmpty then
    (dollarTokens line).foldl (dollarStep accounts line) line
  else line

/-- String form of a catalog standard price as interpolated into the
`?`-expansion (Python prints the float; the canonical numeral of the
rational models it). -/
def ratToStr (q : ℚ) : String :=
  (if q.num < 0 then "-" else "") ++ fromChars (natToChars (q.num.natAbs + 1) q.num.natAbs) ++
    (if q.den = 1 then "" else "/" ++ fromChars (natToChars (q.den + 1) q.den))

/-- One line of `expand_quick_input`: the `$` account branch, then the
`## #` category branch, then the `?` product branch, each later branch
overwriting the earlier result when it fires. -/
def expandLine (products_db : List (String × Product)) (categories_db : List String)
    (accounts_db : List String) (line : String) : String :=
  let e1 := dollarExpand accounts_db line
  let e2 :=
    if myStartsWith line "## #" then
      match categories_db.find?
          (fun cat => strInfix (strLower (myTrim (strDrop line 4))) (strLower cat)) with
      | some cat => "## " ++ cat
      | none => e1
    else e1
  if myStartsWith (myTrim line) "?" then
    match products_db.find?
        (fun p => strInfix (strLower (myTrim (strDrop (myTrim line) 1))) (strLower p.1)) with
    | some p => p.1 ++ " >> " ++ ratToStr p.2.standardPrice
    | none => e2
  else e2

/-- `expand_quick_input(text, products_db, categories_db, accounts_db)`:
split on newlines, expand each line, rejoin. -/
def expand_quick_input (text : String) (products_db : List (String × Product))
    (categories_db : List String) (accounts_db : List String) : String :=
  strJoin "\n" ((strSplitOn text "\n").map
    (expandLine products_db categories_db accounts_db))

/-! ## The 遗失 (lost) transitions -/

/-- A `lost.csv` record: the inventory columns plus `lostDate`. -/
structure LostRec where
  item : PItem
  lostDate : String
deriving DecidableEq

/-- The mark-lost handler body for one selected item: the inventory
row's attributes plus `item['lostDate'] = today`. -/
def markLost (it : PItem) (todayStr : String) : LostRec := ⟨it, todayStr⟩

/-- The 确认找回 handler body for one selected lost record:
`item.pop('lostDate', None)` before the row returns to inventory. -/
def recoverLost (l : LostRec) : PItem := l.item

/-! ## Subscriptions (`parse_subscription_input`, `check_subscriptions`) -/

/-- A subscription record (`subscriptions.json` values): period is the
raw string between the first two colons (`'M'` for monthly, anything
else taking the yearly branch at parse time), `day` the raw anchor text
(day-of-month, or `MMDD`), `nextDate` the stored `'%Y-%m-%d'` string. -/
structure SubRec where
  name : String
  price : ℚ
  period : String
  day : String
  nextDate : String
  currency : String
  source : String
  account : String
  category : String
deriving DecidableEq

/-- The next-due computation of `parse_subscription_input` (lines
285-298): for `M`, `today.replace(day=day)`, rolled into the next month
via `today.replace(day=1) + timedelta(days=32)` when not strictly in the
future; otherwise `today.replace(month=.., day=..)`, rolled to next year
when not strictly in the future.  A failing `replace` or `int` raises
(`ValueError`). -/
def computeNextDate (today : Date) (period date_str : String) : Except Err Date :=
  if period = "M" then
    match pyNat date_str with
    | none => .error .valueError
    | some day =>
      match replaceDay today day with
      | none => .error .valueError
      | some next =>
        if dle next today then
          match replaceDay (addDays ⟨today.year, today.month, 1⟩ 32) day with
          | none => .error .valueError
          | some next' => .ok next'
        else .ok next
  else
    match pyNat (strTake date_str 2), pyNat (strDrop date_str 2) with
    | some month, some day =>
      match replaceMonthDay today month day with
      | none => .error .valueError
      | some next =>
        if dle next today then
          match replaceYear next (today.year + 1) with
          | none => .error .valueError
          | some next' => .ok next'
        else .ok next
    | _, _ => .error .valueError

/-- The state of the `parse_subscription_input` line loop. -/
structure SubParseSt where
  inMeta : Bool
  meta : List (String × String)
  subs : List SubRec
deriving DecidableEq

/-- One 订阅 line: `parts = line.split(' ', 1)`, `sub_config =
parts[0].split(':')`; with at least three config fields and a `>>` in
the product part, the name, price and computed next-due date form a
subscription record with metadata-derived defaults. -/
def handleSubLine (today : Date) (st : SubParseSt) (line : String) :
    Except Err SubParseSt :=
  let parts := strSplitOnce line " "
  let sub_config := strSplitOn (match parts with | p :: _ => p | [] => line) ":"
  match sub_config with
  | _ :: period :: date_str :: _ =>
    let product_line := match parts with | _ :: p :: _ => p | _ => ""
    if strContains line ">>" then
      match strSplitOn product_line ">>" with
      | q0 :: q1 :: _ =>
        match pyFloat (myTrim q1) with
        | none => .error .valueError
        | some price =>
          match computeNextDate today period date_str with
          | .error e => .error e
          | .ok next_date =>
            .ok { st with
                  subs := st.subs ++
                    [{ name := myTrim q0, price := price, period := period,
                       day := date_str, nextDate := dateToStr next_date,
                       currency := metaGetD st.meta "币种" "EUR",
                       source := metaGetD st.meta "入金" "",
                       account := metaGetD st.meta "出金" "",
                       category := metaGetD st.meta "类型" "订阅服务" }] }
      | _ => .ok st
    else .ok st
  | _ => .ok st

/-- One iteration of the `parse_subscription_input` line loop. -/
def parseSubLine (today : Date) (st : SubParseSt) (raw : String) :
    Except Err SubParseSt :=
  let line := myTrim raw
  if line = "---" then .ok { st with inMeta := !st.inMeta }
  else if st.inMeta then
    if strContains line "：" then
      match strSplitOnce line "：" with
      | [k, v] => .ok { st with meta := dictSet st.meta (myTrim k) (myTrim v) }
      | _ => .ok st
    else .ok st
  else if myStartsWith line "订阅:" then handleSubLine today st line
  else .ok st

def parseSubLines (today : Date) : List String → SubParseSt → Except Err SubParseSt
  | [], st => .ok st
  | l :: ls, st =>
    match parseSubLine today st l with
    | .error e => .error e
    | .ok st' => parseSubLines today ls st'

/-- `parse_subscription_input(text)`; `today` is `datetime.now().date()`. -/
def parse_subscription_input (today : Date) (text : String) :
    Except Err (List SubRec) :=
  match parseSubLines today (strSplitOn (myTrim text) "\n") ⟨false, [], []⟩ with
  | .error e => .error e
  | .ok st => .ok st.subs

/-- The new inventory item `check_subscriptions` creates on renewal. -/
def mkRenewItem (name : String) (info : SubRec) (today : Date) (rate : ℚ)
    (counter : Nat) : PItem :=
  { id := counter, name := name, category := info.category,
    actualPrice := info.price, standardPrice := info.price,
    currency := info.currency, purchaseDate := dateToStr today,
    source := info.source, account := info.account,
    invoiceName := "订阅_" ++ name, discount := 0, inTransit := false,
    purchaseRate := rate }

/-- The history record built for one archived subscription instance:
checkout today, utilization 100, mode `subscription_auto`,
`daysInService` from the item's own (re-parsed) purchase date. -/
def histOf (today : Date) (old : PItem) : Except Err HistItem :=
  match parseDate old.purchaseDate with
  | .error e => .error e
  | .ok pd => .ok ⟨old, dateToStr today, 100, "subscription_auto",
      ordinal today - ordinal pd⟩

/-- The `for _, old_item in old_items.iterrows()` loop collected as one
traversal (Python interleaves the history append and the id-based
inventory removal per row; an exception part-way aborts the whole run
either way). -/
def mapExcept {α β : Type} (f : α → Except Err β) : List α → Except Err (List β)
  | [] => .ok []
  | a :: l =>
    match f a with
    | .error e => .error e
    | .ok b =>
      match mapExcept f l with
      | .error e => .error e
      | .ok bs => .ok (b :: bs)

/-- `inventory_df = inventory_df[inventory_df['id'] != old_item['id']]`
applied for each archived row in turn. -/
def removeByIds (olds : List PItem) (l : List PItem) : List PItem :=
  olds.foldl (fun acc o => acc.filter (fun it => it.id ≠ o.id)) l

/-- The next-due-date advance at renewal time (lines 359-366): monthly
from `next_date.replace(day=1) + timedelta(days=32)` re-anchored to the
stored day; yearly via `next_date.replace(year=next_date.year+1,
month=.., day=..)`; any other period string leaves the record
unchanged. -/
def advanceNext (info : SubRec) (next_date : Date) : Except Err SubRec :=
  if info.period = "M" then
    match pyNat info.day with
    | none => .error .valueError
    | some day =>
      match replaceDay (addDays ⟨next_date.year, next_date.month, 1⟩ 32) day with
      | none => .error .valueError
      | some nd => .ok { info with nextDate := dateToStr nd }
  else if info.period = "Y" then
    match pyNat (strTake info.day 2), pyNat (strDrop info.day 2) with
    | some month, some day =>
      match replaceYMD next_date (next_date.year + 1) month day with
      | none => .error .valueError
      | some nd => .ok { info with nextDate := dateToStr nd }
    | _, _ => .error .valueError
  else .ok info

/-- The state threaded through the `check_subscriptions` loop. -/
structure RunSt where
  inv : List PItem
  hist : List HistItem
  outSubs : List (String × SubRec)
  renewed : List String
  counter : Nat
deriving DecidableEq

/-- `old_items = inventory_df[(inventory_df['name'] == sub_name) &
(inventory_df['id'] != item['id'])]`, taken over the inventory with the
fresh renewal item already appended. -/
def oldsOf (inv : List PItem) (name : String) (newItem : PItem) : List PItem :=
  (inv ++ [newItem]).filter (fun it => it.name = name ∧ it.id ≠ newItem.id)

/-- The inventory after the archive loop: each old row removed by id. -/
def renewRemove (inv : List PItem) (name : String) (newItem : PItem) : List PItem :=
  removeByIds (oldsOf inv name newItem) (inv ++ [newItem])

/-- One iteration of the `check_subscriptions` loop for the entry
`(sub_name, sub_info)`: parse the stored next-due date; when
`today >= next_date`, create the renewal item, archive every other
inventory row with that name, advance the next-due date, and note the
name as renewed; otherwise the entry passes through unchanged. -/
def stepSub (today : Date) (table : List RateRow) (st : RunSt)
    (entry : String × SubRec) : Except Err RunSt :=
  match parseDate entry.2.nextDate with
  | .error e => .error e
  | .ok next_date =>
    if dle next_date today then
      match get_exchange_rate table entry.2.currency (dateToStr today) with
      | .error e => .error e
      | .ok rate =>
        match mapExcept (histOf today)
            (oldsOf st.inv entry.1 (mkRenewItem entry.1 entry.2 today rate st.counter)) with
        | .error e => .error e
        | .ok entries =>
          match advanceNext entry.2 next_date with
          | .error e => .error e
          | .ok info' =>
            .ok ⟨renewRemove st.inv entry.1
                   (mkRenewItem entry.1 entry.2 today rate st.counter),
                 st.hist ++ entries,
                 st.outSubs ++ [(entry.1, info')],
                 st.renewed ++ [entry.1], st.counter + 1⟩
    else .ok { st with outSubs := st.outSubs ++ [entry] }

def checkSubsGo (today : Date) (table : List RateRow) :
    List (String × SubRec) → RunSt → Except Err RunSt
  | [], st => .ok st
  | e :: rest, st =>
    match stepSub today table st e with
    | .error er => .error er
    | .ok st' => checkSubsGo today table rest st'

/-- `check_subscriptions(subscriptions_db, inventory_df, history_df,
deposits_db)`: iterate the subscription dict in insertion order,
renewing the due entries; returns the new inventory, history, the
updated subscription dict and the renewed names.  The `deposits_db`
argument is accepted exactly as in the source, which never reads or
writes it. -/
def check_subscriptions (today : Date) (table : List RateRow)
    (subscriptions_db : List (String × SubRec)) (inventory_df : List PItem)
    (history_df : List HistItem) (deposits_db : List (String × Nat))
    (counter : Nat) :
    Except Err (List PItem × List HistItem × List (String × SubRec) × List String × Nat) :=
  match checkSubsGo today table subscriptions_db
      ⟨inventory_df, history_df, [], [], counter⟩ with
  | .error e => .error e
  | .ok st => .ok (st.inv, st.hist, st.outSubs, st.renewed, st.counter)

/-- The record-store state at process start. -/
structure SysState where
  inv : List PItem
  hist : List HistItem
  subs : List (String × SubRec)
  deposits : List (String × Nat)
  counter : Nat
deriving DecidableEq

/-- The startup block (lines 395-402): run the recurrence check and save
inventory, history and the subscription dict; `deposits.json` is not
rewritten on this path. -/
def runStartupCheck (today : Date) (table : List RateRow) (s : SysState) :
    Except Err (SysState × List String) :=
  match check_subscriptions today table s.subs s.inv s.hist s.deposits s.counter with
  | .error e => .error e
  | .ok (inv', hist', subs', renewed, counter') =>
    .ok (⟨inv', hist', subs', s.deposits, counter'⟩, renewed)

/-! ## Spec-side comparators and concrete fixtures -/

/-- Modelled from the spec (§4.5): advancing a monthly next-due date "by
exactly one period ... from its previous next-due date — not from today
— preserving the anchor day". -/
def monthlySpecNext (nd : Date) (day : Nat) : Date :=
  if nd.month = 12 then ⟨nd.year + 1, 1, day⟩ else ⟨nd.year, nd.month + 1, day⟩

/-- The fields of an inventory row that the renewal scenario pins down:
purchase date, actual price, standard price, currency. -/
def itemCore (it : PItem) : String × ℚ × ℚ × String :=
  (it.purchaseDate, it.actualPrice, it.standardPrice, it.currency)

/-- What one due subscription obtains from a `check_subscriptions` run
(`preInv` is the inventory before the run, `nd` the parsed previous
next-due date, `out` the final loop state): exactly one open instance
remains and it is the fresh one dated today at the subscription's price
and currency; every previously open instance is archived as
`subscription_auto` with utilization 100 and its own days-in-service;
the stored next-due date advanced by exactly one anchor-preserving
period from `nd`; and the name is reported as renewed. -/
def DueOutcome (today : Date) (preInv : List PItem) (name : String)
    (info : SubRec) (nd : Date) (out : RunSt) : Prop :=
  ((out.inv.filter (fun it => it.name = name)).map itemCore =
      [(dateToStr today, info.price, info.price, info.currency)]) ∧
  (∀ it ∈ preInv, it.name = name → ∀ pd, parseDate it.purchaseDate = .ok pd →
      ∃ h, h ∈ out.hist ∧ h.item = it ∧ h.checkoutMode = "subscription_auto" ∧
        h.utilization = 100 ∧ h.checkoutDate = dateToStr today ∧
        h.daysInService = ordinal today - ordinal pd) ∧
  (info.period = "M" → ∀ d, pyNat info.day = some d →
      out.outSubs.lookup name =
        some { info with nextDate := dateToStr (monthlySpecNext nd d) }) ∧
  (info.period = "Y" → ∀ m d, pyNat (strTake info.day 2) = some m →
      pyNat (strDrop info.day 2) = some d →
      out.outSubs.lookup name =
        some { info with nextDate := dateToStr (⟨nd.year + 1, m, d⟩ : Date) }) ∧
  name ∈ out.renewed

/-- A concrete snapshot table used by the closed checks (one `2025-09`
row, as the seeded table has, with integral rates). -/
def rates0 : List RateRow :=
  [⟨"2025-09", [("EUR", 1), ("CNY", 8), ("USD", 2), ("JPY", 150)]⟩]

/-- A concrete open deposit-bearing inventory item. -/
def pfItem (i : Nat) : PItem :=
  ⟨i, "Pfand Flasche", "Pfand", 1, 1, "EUR", "2025-10-01", "", "", "", 0, false, 1⟩

def prodPfand : Product := ⟨"Pfand Flasche", 1, "EUR", "Pfand", 3, true⟩

/-- A concrete store: three open deposit-bearing items, a deposit ledger
holding 3 for their name, empty history. -/
def store0 : Store :=
  ⟨[pfItem 0, pfItem 1, pfItem 2], [], [("Pfand Flasche", prodPfand)],
   ["Pfand"], [], [("Pfand Flasche", 3)], 3⟩

/-- A submitted block: one ordinary purchase line and one deposit-return
line asking to return 2 deposits. -/
def c1text : String := "Apfel >> 2\nPfand (2) << 3.00"

def today0 : Date := ⟨2025, 10, 12⟩

/-- A concrete monthly subscription anchored on day 25, due since
September. -/
def sub0 : SubRec :=
  ⟨"Crunchyroll", 7, "M", "25", "2025-09-25", "EUR", "", "", "订阅服务"⟩

/-- The open inventory instance of that subscription. -/
def old0 : PItem :=
  ⟨0, "Crunchyroll", "订阅服务", 7, 7, "EUR", "2025-09-25", "", "",
   "订阅_Crunchyroll", 0, false, 1⟩

/-! ## Theorems -/

/-- C9: an item moved `IN_INVENTORY → LOST → IN_INVENTORY` comes back
with attributes identical to its original state; the `lostDate` attached
by the mark-lost handler is exactly what recovery pops, so it is absent
afterwards (a `PItem` has no such field). -/
theorem lost_recover_roundtrip (it : PItem) (todayStr : String) :
    recoverLost (markLost it todayStr) = it := rfl

/-- C10: `check_subscriptions` accepts the deposit ledger but never
reads it — its result is the same for any two ledgers — and the startup
pipeline that applies it carries the ledger through unchanged, whether
or not the run succeeds. -/
theorem check_subscriptions_deposits_frame :
    (∀ (today : Date) (table : List RateRow) (subs : List (String × SubRec))
        (inv : List PItem) (hist : List HistItem) (counter : Nat)
        (d₁ d₂ : List (String × Nat)),
      check_subscriptions today table subs inv hist d₁ counter =
        check_subscriptions today table subs inv hist d₂ counter) ∧
    (∀ (today : Date) (table : List RateRow) (s : SysState),
      (runStartupCheck today table s).map (fun r => r.1.deposits) =
        (runStartupCheck today table s).map (fun _ => s.deposits)) := by
  constructor
  · intro today table subs inv hist counter d₁ d₂
    rfl
  · intro today table s
    unfold runStartupCheck
    cases h : check_subscriptions today table s.subs s.inv s.hist s.deposits s.counter with
    | error e => rfl
    | ok v =>
      obtain ⟨a, b, c, d, e⟩ := v
      rfl

/-- `find?` is the head of `filter`: the pandas row filter followed by
`.values[0]` picks the first month-matching row. -/
theorem find?_eq_filter_head {α : Type} (p : α → Bool) (l : List α) :
    l.find? p = (l.filter p).head? := by
  induction l with
  | nil => rfl
  | cons a t ih =>
    cases h : p a with
    | true => rw [List.find?_cons_of_pos _ h, List.filter_cons_of_pos h]; rfl
    | false =>
      rw [List.find?_cons_of_neg _ (by simp [h]), List.filter_cons_of_neg (by simp [h]), ih]

/-- C4: converting to base returns the amount unchanged for the base
currency; otherwise it divides by the rate of the first snapshot row
whose month equals the date's year-month, or, when no row matches, by
the rate of the last row of the table. -/
theorem to_eur_rate_resolution (table : List RateRow) (amount : ℚ)
    (currency date_str : String) :
    (currency = BASE_CURRENCY →
      to_eur table amount currency date_str = .ok amount) ∧
    (currency ≠ BASE_CURRENCY →
      ∀ row rate, table.find? (fun r => r.month == strTake date_str 7) = some row →
        row.rates.lookup currency = some rate → rate ≠ 0 →
        to_eur table amount currency date_str = .ok (amount / rate)) ∧
    (currency ≠ BASE_CURRENCY →
      table.find? (fun r => r.month == strTake date_str 7) = none →
      ∀ lrow rate, table.getLast? = some lrow →
        lrow.rates.lookup currency = some rate → rate ≠ 0 →
        to_eur table amount currency date_str = .ok (amount / rate)) := by
  refine ⟨fun h => by unfold to_eur; rw [if_pos h], ?_, ?_⟩
  · intro hne row rate hfind hlook hrate
    rw [find?_eq_filter_head] at hfind
    simp only [to_eur, get_exchange_rate, if_neg hne, hfind, hlook, if_neg hrate]
  · intro hne hfind lrow rate hlast hlook hrate
    rw [find?_eq_filter_head] at hfind
    simp only [to_eur, get_exchange_rate, if_neg hne, hfind, hlast, hlook, if_neg hrate]

/-- Witness for C4 at concrete inputs: a base-currency conversion passes
through, a `2025-11` request against the `2025-09`-only table falls back
to the last row, and a month-matching request uses that row. -/
theorem to_eur_rate_resolution_witness :
    to_eur rates0 5 "EUR" "2025-11-03" = .ok 5 ∧
    to_eur rates0 16 "CNY" "2025-11-03" = .ok (16 / 8) ∧
    to_eur rates0 16 "CNY" "2025-09-03" = .ok (16 / 8) := by
  refine ⟨(to_eur_rate_resolution rates0 5 "EUR" "2025-11-03").1 rfl, ?_, ?_⟩
  · exact (to_eur_rate_resolution rates0 16 "CNY" "2025-11-03").2.2
      (by decide) (by decide) ⟨"2025-09", [("EUR", 1), ("CNY", 8), ("USD", 2), ("JPY", 150)]⟩
      8 (by decide) (by decide) (by norm_num)
  · exact (to_eur_rate_resolution rates0 16 "CNY" "2025-09-03").2.1
      (by decide) ⟨"2025-09", [("EUR", 1), ("CNY", 8), ("USD", 2), ("JPY", 150)]⟩
      8 (by decide) (by decide) (by norm_num)

/-- C5: when no snapshot row carries a column for the requested
currency, the lookup never produces a rate (in particular it never
defaults to `1.0`); with a nonempty table the error is precisely the
missing-rate condition (`KeyError` on the currency column, the spec's
`MissingRateError`). -/
theorem mem_of_head?_some {α : Type} {l : List α} {a : α} (h : l.head? = some a) :
    a ∈ l := by
  cases l with
  | nil => exact absurd h (by simp)
  | cons x t =>
    rw [List.head?_cons, Option.some.injEq] at h
    rw [← h]
    exact List.mem_cons_self x t

theorem mem_of_getLast?_some {α : Type} {l : List α} {a : α}
    (h : l.getLast? = some a) : a ∈ l := by
  obtain ⟨hne, heq⟩ := List.mem_getLast?_eq_getLast (Option.mem_def.mpr h)
  rw [heq]
  exact List.getLast_mem hne

theorem missing_currency_aborts (table : List RateRow) (currency date_str : String)
    (habs : ∀ row ∈ table, row.rates.lookup currency = none) :
    (∀ q, get_exchange_rate table currency date_str ≠ .ok q) ∧
    (table ≠ [] → get_exchange_rate table currency date_str = .error .missingRate) := by
  cases hh : (table.filter (fun r => r.month == strTake date_str 7)).head? with
  | some row =>
    have hrow : row ∈ table := (List.mem_filter.mp (mem_of_head?_some hh)).1
    have hv : get_exchange_rate table currency date_str = .error .missingRate := by
      unfold get_exchange_rate
      rw [hh]
      simp only [habs row hrow]
    rw [hv]
    exact ⟨(fun q h => nomatch h), fun _ => rfl⟩
  | none =>
    cases hl : table.getLast? with
    | some lrow =>
      have hrow : lrow ∈ table := mem_of_getLast?_some hl
      have hv : get_exchange_rate table currency date_str = .error .missingRate := by
        unfold get_exchange_rate
        rw [hh, hl]
        simp only [habs lrow hrow]
      rw [hv]
      exact ⟨(fun q h => nomatch h), fun _ => rfl⟩
    | none =>
      have hnil : table = [] := List.getLast?_eq_none_iff.mp hl
      have hv : get_exchange_rate table currency date_str = .error .indexError := by
        unfold get_exchange_rate
        rw [hh, hl]
      rw [hv]
      exact ⟨(fun q h => nomatch h), fun hne => absurd hnil hne⟩

/-- Witness for C5: the seeded table has no `GBP` column, so a `GBP`
lookup aborts with the missing-rate error rather than returning any
rate. -/
theorem missing_currency_aborts_witness :
    (∀ q, get_exchange_rate rates0 "GBP" "2025-10-12" ≠ .ok q) ∧
    get_exchange_rate rates0 "GBP" "2025-10-12" = .error .missingRate := by
  have h := missing_currency_aborts rates0 "GBP" "2025-10-12" (by decide)
  exact ⟨h.1, h.2 (by decide)⟩

theorem findSome?_cons_eq {α β : Type} (f : α → Option β) (a : α) (l : List α) :
    (a :: l).findSome? f =
      match f a with
      | some b => some b
      | none => l.findSome? f := rfl

theorem findSome?_append_cases {α β : Type} (f : α → Option β) (l₁ l₂ : List α) :
    (l₁ ++ l₂).findSome? f =
      match l₁.findSome? f with
      | some b => some b
      | none => l₂.findSome? f := by
  induction l₁ with
  | nil => rfl
  | cons a t ih =>
    rw [List.cons_append, findSome?_cons_eq, findSome?_cons_eq]
    cases f a with
    | some b => rfl
    | none => rw [ih]

theorem findSome?_all_none {α β : Type} (f : α → Option β) (l : List α)
    (h : ∀ a ∈ l, f a = none) : l.findSome? f = none := by
  induction l with
  | nil => rfl
  | cons a t ih =>
    show (match f a with
          | some b => some b
          | none => t.findSome? f) = none
    rw [h a (List.mem_cons_self a t)]
    exact ih fun x hx => h x (List.mem_cons_of_mem a hx)

/-- The `$`-branch fold overwrites the whole working line at every
successful match, so only the last successful match's substitution
survives. -/
theorem foldl_dollarStep (accounts : List String) (line init : String)
    (l : List String) :
    l.foldl (dollarStep accounts line) init =
      (l.reverse.findSome? (fun tok => (firstMatchAccount accounts tok).map
        (fun account => strReplace line ("$" ++ tok) account))).getD init := by
  induction l generalizing init with
  | nil => rfl
  | cons a t ih =>
    rw [List.foldl_cons, List.reverse_cons, ih, findSome?_append_cases]
    cases htr : t.reverse.findSome? (fun tok => (firstMatchAccount accounts tok).map
        (fun account => strReplace line ("$" ++ tok) account)) with
    | some r => rfl
    | none =>
      rw [findSome?_cons_eq]
      unfold dollarStep
      cases hga : firstMatchAccount accounts a with
      | some b => rfl
      | none => rfl

theorem dollarScan_nil_of_no_dollar (fuel : Nat) (l : List Char)
    (h : l.contains '$' = false) : dollarScan fuel l = [] := by
  induction fuel generalizing l with
  | zero => cases l <;> rfl
  | succ n ih =>
    cases l with
    | nil => rfl
    | cons c rest =>
      rw [List.contains_cons, Bool.or_eq_false_iff] at h
      have hc : (c = '$') = False := by
        simp only [beq_eq_false_iff_ne] at h
        exact eq_false (Ne.symm h.1)
      simp only [dollarScan, hc, if_false]
      exact ih rest h.2

/-- C8 counterexample: on the line `"$al $bo"` with accounts
`["Alpha", "Boa"]` both hints have prefix matches, yet expansion yields
`"$al Boa"` — the `$al` substitution is lost because each substitution
is computed against the original line — while independent per-occurrence
substitution, as the claim states it, would give `"Alpha Boa"`. -/
theorem expand_dollar_overwrites :
    expand_quick_input "$al $bo" [] [] ["Alpha", "Boa"] = "$al Boa" ∧
      "$al Boa" ≠ "Alpha Boa" := by
  exact ⟨by decide, by decide⟩

/-- C8 amended: on a line that triggers neither the category nor the
product branch, quick-input expansion returns the substitution of the
*last* `$hint` token (in scan order) that has a prefix-matching account,
applied to the original line (replacing every occurrence of that one
token); substitutions computed for earlier matching tokens are
discarded, and with no matching token the line passes through
untouched. -/
theorem dollar_expansion_last_match_wins (products_db : List (String × Product))
    (categories_db accounts_db : List String) (line : String)
    (h1 : myStartsWith line "## #" = false)
    (h2 : myStartsWith (myTrim line) "?" = false) :
    expandLine products_db categories_db accounts_db line =
      ((dollarTokens line).reverse.findSome?
        (fun tok => (firstMatchAccount accounts_db tok).map
          (fun account => strReplace line ("$" ++ tok) account))).getD line := by
  unfold expandLine
  simp only [h1, h2, Bool.false_eq_true, if_false]
  unfold dollarExpand
  by_cases hd : (line.data.contains '$' && !accounts_db.isEmpty) = true
  · rw [if_pos hd]
    exact foldl_dollarStep accounts_db line line (dollarTokens line)
  · rw [if_neg hd]
    rw [Bool.and_eq_true, not_and_or] at hd
    rcases hd with hd | hd
    · have hnd : line.data.contains '$' = false := by
        cases hcc : line.data.contains '$' with
        | false => rfl
        | true => exact absurd hcc hd
      rw [show dollarTokens line = [] from
        dollarScan_nil_of_no_dollar line.data.length line.data hnd]
      rfl
    · have hacc : accounts_db = [] := by
        cases accounts_db with
        | nil => rfl
        | cons a t => simp at hd
      subst hacc
      have hnone : ((dollarTokens line).reverse.findSome?
          (fun tok => (firstMatchAccount ([] : List String) tok).map
            (fun account => strReplace line ("$" ++ tok) account))) = none :=
        findSome?_all_none _ _ (fun tok _ => rfl)
      rw [hnone]
      rfl

/-- Witness for the amended C8 statement at a concrete line with two
matching hints. -/
theorem dollar_expansion_last_match_wins_witness :
    expandLine [] [] ["Alpha", "Boa"] "pay $al then $bo" =
      ((dollarTokens "pay $al then $bo").reverse.findSome?
        (fun tok => (firstMatchAccount ["Alpha", "Boa"] tok).map
          (fun account => strReplace "pay $al then $bo" ("$" ++ tok) account))).getD
        "pay $al then $bo" :=
  dollar_expansion_last_match_wins [] [] ["Alpha", "Boa"] "pay $al then $bo"
    (by decide) (by decide)

theorem daysInMonth_bounds (y m : Nat) :
    28 ≤ daysInMonth y m ∧ daysInMonth y m ≤ 31 := by
  unfold daysInMonth
  split
  · split <;> omega
  · split <;> omega

theorem validB_facts {y m d : Nat} (h : Date.validB y m d = true) :
    1 ≤ y ∧ y ≤ 9999 ∧ 1 ≤ m ∧ m ≤ 12 ∧ 1 ≤ d ∧ d ≤ daysInMonth y m := by
  simp only [Date.validB, Bool.and_eq_true, decide_eq_true_eq] at h
  tauto

theorem dle_iff (a b : Date) :
    dle a b = true ↔
      (a.year < b.year ∨ (a.year = b.year ∧
        (a.month < b.month ∨ (a.month = b.month ∧ a.day ≤ b.day)))) := by
  simp [dle, Bool.or_eq_true, Bool.and_eq_true, decide_eq_true_eq]

theorem addDays_add (d : Date) (a b : Nat) :
    addDays d (a + b) = addDays (addDays d a) b := by
  induction a generalizing d with
  | zero => rw [Nat.zero_add]; rfl
  | succ n ih =>
    rw [Nat.succ_add]
    show addDays (nextDay d) (n + b) = _
    rw [ih]
    rfl

theorem addDays_within : ∀ (n : Nat) (d : Date),
    d.day + n ≤ daysInMonth d.year d.month →
    addDays d n = ⟨d.year, d.month, d.day + n⟩
  | 0, d, _ => by simp [addDays]
  | n+1, d, h => by
    have hd : d.day < daysInMonth d.year d.month := by omega
    show addDays (nextDay d) n = _
    rw [show nextDay d = ⟨d.year, d.month, d.day + 1⟩ from by
      unfold nextDay; rw [if_pos hd]]
    rw [addDays_within n ⟨d.year, d.month, d.day + 1⟩ (by simpa using by omega)]
    simp
    omega

theorem nextDay_eom (y m : Nat) (h1 : 1 ≤ m) (h2 : m ≤ 12) :
    nextDay ⟨y, m, daysInMonth y m⟩ =
      if m = 12 then ⟨y + 1, 1, 1⟩ else ⟨y, m + 1, 1⟩ := by
  unfold nextDay
  simp only [lt_irrefl, if_false]
  by_cases h12 : m = 12
  · subst h12
    simp
  · have hlt : m < 12 := by omega
    rw [if_pos hlt, if_neg h12]

/-- `date.replace(day=1) + timedelta(days=32)` lands in the following
month (rolling the year after December), on a day between the 2nd and
the 5th. -/
theorem addDays_month_step (y m : Nat) (h1 : 1 ≤ m) (h2 : m ≤ 12) :
    addDays ⟨y, m, 1⟩ 32 =
      ⟨if m = 12 then y + 1 else y, if m = 12 then 1 else m + 1,
       33 - daysInMonth y m⟩ := by
  obtain ⟨hb1, hb2⟩ := daysInMonth_bounds y m
  have h32 : 32 = (daysInMonth y m - 1) + (1 + (32 - daysInMonth y m)) := by omega
  rw [h32, addDays_add]
  rw [addDays_within (daysInMonth y m - 1) ⟨y, m, 1⟩ (by simp; omega)]
  have hday : 1 + (daysInMonth y m - 1) = daysInMonth y m := by omega
  rw [hday, addDays_add]
  rw [show addDays ⟨y, m, daysInMonth y m⟩ 1 = nextDay ⟨y, m, daysInMonth y m⟩ from rfl]
  rw [nextDay_eom y m h1 h2]
  by_cases h12 : m = 12
  · subst h12
    rw [if_pos rfl]
    have hd12 : daysInMonth y 12 = 31 := by simp [daysInMonth]
    rw [hd12]
    rw [addDays_within (32 - 31) ⟨y + 1, 1, 1⟩ (by
      have := (daysInMonth_bounds (y + 1) 1).1
      simp
      omega)]
    simp
  · rw [if_neg h12]
    have hnext := (daysInMonth_bounds y (m + 1)).1
    rw [addDays_within (32 - daysInMonth y m) ⟨y, m + 1, 1⟩ (by simp; omega)]
    simp only [if_neg h12]
    congr 1
    omega


theorem replaceDay_some {dt : Date} {day : Nat} {r : Date}
    (h : replaceDay dt day = some r) :
    Date.validB dt.year dt.month day = true ∧ r = ⟨dt.year, dt.month, day⟩ := by
  unfold replaceDay at h
  by_cases hv : Date.validB dt.year dt.month day = true
  · rw [if_pos hv] at h
    injection h with h
    exact ⟨hv, h.symm⟩
  · rw [if_neg hv] at h
    cases h

theorem replaceMonthDay_some {dt : Date} {m day : Nat} {r : Date}
    (h : replaceMonthDay dt m day = some r) :
    Date.validB dt.year m day = true ∧ r = ⟨dt.year, m, day⟩ := by
  unfold replaceMonthDay at h
  by_cases hv : Date.validB dt.year m day = true
  · rw [if_pos hv] at h
    injection h with h
    exact ⟨hv, h.symm⟩
  · rw [if_neg hv] at h
    cases h

theorem replaceYear_some {dt : Date} {y : Nat} {r : Date}
    (h : replaceYear dt y = some r) :
    Date.validB y dt.month dt.day = true ∧ r = ⟨y, dt.month, dt.day⟩ := by
  unfold replaceYear at h
  by_cases hv : Date.validB y dt.month dt.day = true
  · rw [if_pos hv] at h
    injection h with h
    exact ⟨hv, h.symm⟩
  · rw [if_neg hv] at h
    cases h

theorem replaceYMD_some {dt : Date} {y m day : Nat} {r : Date}
    (h : replaceYMD dt y m day = some r) :
    Date.validB y m day = true ∧ r = ⟨y, m, day⟩ := by
  unfold replaceYMD at h
  by_cases hv : Date.validB y m day = true
  · rw [if_pos hv] at h
    injection h with h
    exact ⟨hv, h.symm⟩
  · rw [if_neg hv] at h
    cases h

/-- C3: the next-due date a parsed subscription line computes is the
soonest occurrence of the anchor strictly after today.  Monthly anchor
`d`: day `d` of the current month when today is before that day, else
day `d` of the next month (rolling the year after December).  Yearly
anchor `(mo, d)`: that month/day this year when still strictly after
today, else that month/day of next year. -/
theorem subscription_next_due (today : Date) (period dateStr : String) (nd : Date)
    (hok : computeNextDate today period dateStr = .ok nd) :
    (period = "M" → ∀ d, pyNat dateStr = some d →
      ((today.day < d → nd = ⟨today.year, today.month, d⟩) ∧
       (d ≤ today.day → nd = monthlySpecNext today d))) ∧
    (period = "Y" → ∀ mo d, pyNat (strTake dateStr 2) = some mo →
      pyNat (strDrop dateStr 2) = some d →
      (((today.month < mo ∨ (today.month = mo ∧ today.day < d)) →
          nd = ⟨today.year, mo, d⟩) ∧
       ((mo < today.month ∨ (mo = today.month ∧ d ≤ today.day)) →
          nd = ⟨today.year + 1, mo, d⟩))) := by
  constructor
  · intro hM d hpy
    subst hM
    unfold computeNextDate at hok
    rw [if_pos rfl] at hok
    simp only [hpy] at hok
    cases hrep : replaceDay today d with
    | none =>
      simp only [hrep] at hok
      exact Except.noConfusion hok
    | some next =>
      obtain ⟨hval, hnext⟩ := replaceDay_some hrep
      subst hnext
      obtain ⟨_, _, hm1, hm12, hd1, hdub⟩ := validB_facts hval
      simp only [hrep] at hok
      constructor
      · intro hlt
        have hfalse : ¬ (dle ⟨today.year, today.month, d⟩ today = true) := by
          rw [dle_iff]
          dsimp only
          push_neg
          exact ⟨by omega, fun _ => ⟨by omega, fun _ => by omega⟩⟩
        rw [if_neg hfalse] at hok
        injection hok with h
        exact h.symm
      · intro hge
        have htrue : dle ⟨today.year, today.month, d⟩ today = true := by
          rw [dle_iff]
          exact Or.inr ⟨rfl, Or.inr ⟨rfl, hge⟩⟩
        rw [if_pos htrue] at hok
        rw [addDays_month_step today.year today.month hm1 hm12] at hok
        cases hrep2 : replaceDay
            ⟨if today.month = 12 then today.year + 1 else today.year,
             if today.month = 12 then 1 else today.month + 1,
             33 - daysInMonth today.year today.month⟩ d with
        | none =>
          simp only [hrep2] at hok
          exact Except.noConfusion hok
        | some nd2 =>
          obtain ⟨hval2, hnd2⟩ := replaceDay_some hrep2
          simp only [hrep2] at hok
          injection hok with h
          rw [← h, hnd2]
          unfold monthlySpecNext
          by_cases h12 : today.month = 12 <;> simp [h12]
  · intro hY mo d hmo hd
    subst hY
    unfold computeNextDate at hok
    rw [if_neg (by decide)] at hok
    simp only [hmo, hd] at hok
    cases hrep : replaceMonthDay today mo d with
    | none =>
      simp only [hrep] at hok
      exact Except.noConfusion hok
    | some next =>
      obtain ⟨hval, hnext⟩ := replaceMonthDay_some hrep
      subst hnext
      simp only [hrep] at hok
      constructor
      · intro hafter
        have hfalse : ¬ (dle ⟨today.year, mo, d⟩ today = true) := by
          rw [dle_iff]
          dsimp only
          push_neg
          exact ⟨by omega, fun _ => ⟨by omega, fun _ => by omega⟩⟩
        rw [if_neg hfalse] at hok
        injection hok with h
        exact h.symm
      · intro hbefore
        have htrue : dle ⟨today.year, mo, d⟩ today = true := by
          rw [dle_iff]
          refine Or.inr ⟨rfl, ?_⟩
          rcases hbefore with h | ⟨heq, hle⟩
          · exact Or.inl h
          · exact Or.inr ⟨heq, hle⟩
        rw [if_pos htrue] at hok
        cases hrep2 : replaceYear ⟨today.year, mo, d⟩ (today.year + 1) with
        | none =>
          simp only [hrep2] at hok
          exact Except.noConfusion hok
        | some nd2 =>
          obtain ⟨hval2, hnd2⟩ := replaceYear_some hrep2
          simp only [hrep2] at hok
          injection hok with h
          rw [← h, hnd2]

/-- Witness for C3: on 2025-10-12, a monthly anchor 25 resolves to the
25th of the current month; a yearly anchor `0101` rolls to January 1 of
next year. -/
theorem subscription_next_due_witness :
    ((⟨2025, 10, 25⟩ : Date) = ⟨today0.year, today0.month, 25⟩) ∧
    ((⟨2026, 1, 1⟩ : Date) = ⟨today0.year + 1, 1, 1⟩) := by
  constructor
  · exact ((subscription_next_due today0 "M" "25" ⟨2025, 10, 25⟩ (by decide)).1 rfl 25
      (by decide)).1 (by decide)
  · exact ((subscription_next_due today0 "Y" "0101" ⟨2026, 1, 1⟩ (by decide)).2 rfl 1 1
      (by decide) (by decide)).2 (by decide)

/-- Under the guards that route a line to the purchase-item branch
(not a `---` toggle, not inside metadata, not a category header, not a
deposit return, and splitting on `>>` into at least two parts), the line
loop hands the first two `>>`-parts to the item handler. -/
theorem parseLine_item_route (todayStr : String) (table : List RateRow)
    (st : ParseSt) (raw l r : String) (rest : List String)
    (h0 : st.inMeta = false)
    (h1 : myTrim raw ≠ "---")
    (h2 : myStartsWith (myTrim raw) "## " = false)
    (h3 : (myStartsWith (myTrim raw) "Pfand" && strContains (myTrim raw) "<<") = false)
    (h4 : strSplitOn (myTrim raw) ">>" = l :: r :: rest) :
    parseLine todayStr table st raw = handleItem todayStr table st l r := by
  simp only [parseLine, h0, h1, h2, h3, h4, Bool.false_eq_true, if_false]

/-- The single-price purchase form: the item handler with no `::` on the
price side records the one price as both standard and actual and a zero
discount. -/
theorem handleItem_single (todayStr : String) (table : List RateRow)
    (st : ParseSt) (l r : String) (p q : ℚ)
    (hnc : strContains (myTrim r) "::" = false)
    (hp : pyFloat (myTrim r) = some p)
    (hq : get_exchange_rate table (metaGetD st.meta "币种" "EUR")
      (metaGetD st.meta "日期" todayStr) = .ok q) :
    ∃ it st', handleItem todayStr table st l r = .ok st' ∧
      st'.items = st.items ++ [it] ∧
      it.standardPrice = p ∧ it.actualPrice = p ∧ it.discount = 0 := by
  simp only [handleItem, hnc, hp, hq, Bool.false_eq_true, if_false]
  exact ⟨_, _, rfl, rfl, rfl, rfl, sub_self p⟩

/-- The discounted purchase form: with `standard :: actual` on the price
side the item records both prices and their difference as the
discount — whatever its sign. -/
theorem handleItem_two (todayStr : String) (table : List RateRow)
    (st : ParseSt) (l r r0 r1 : String) (rrest : List String) (s a q : ℚ)
    (hc : strContains (myTrim r) "::" = true)
    (hsp : strSplitOn (myTrim r) "::" = r0 :: r1 :: rrest)
    (hs : pyFloat (myTrim r0) = some s)
    (ha : pyFloat (myTrim r1) = some a)
    (hq : get_exchange_rate table (metaGetD st.meta "币种" "EUR")
      (metaGetD st.meta "日期" todayStr) = .ok q) :
    ∃ it st', handleItem todayStr table st l r = .ok st' ∧
      st'.items = st.items ++ [it] ∧
      it.standardPrice = s ∧ it.actualPrice = a ∧ it.discount = s - a := by
  simp only [handleItem, hc, hsp, hs, ha, hq, if_true]
  exact ⟨_, _, rfl, rfl, rfl, rfl, rfl⟩

/-- Whatever the item handler appends satisfies the discount
invariant, and it appends exactly one item. -/
theorem handleItem_items (todayStr : String) (table : List RateRow)
    (st : ParseSt) (l r : String) (st' : ParseSt)
    (hok : handleItem todayStr table st l r = .ok st') :
    ∃ it, st'.items = st.items ++ [it] ∧
      it.discount = it.standardPrice - it.actualPrice := by
  simp only [handleItem] at hok
  split at hok
  · exact Except.noConfusion hok
  · split at hok
    · exact Except.noConfusion hok
    · injection hok with h
      exact ⟨_, by rw [← h], rfl⟩

theorem handlePfand_items (todayStr : String) (st : ParseSt) (p0 p1 : String)
    (st' : ParseSt) (hok : handlePfand todayStr st p0 p1 = .ok st') :
    st'.items = st.items := by
  simp only [handlePfand] at hok
  split at hok
  · exact Except.noConfusion hok
  · split at hok
    · injection hok with h
      rw [← h]
    · injection hok with h
      rw [← h]

theorem parseLine_discount_invariant (todayStr : String) (table : List RateRow)
    (st : ParseSt) (raw : String) (st' : ParseSt)
    (hok : parseLine todayStr table st raw = .ok st')
    (hst : ∀ it ∈ st.items, it.discount = it.standardPrice - it.actualPrice) :
    ∀ it ∈ st'.items, it.discount = it.standardPrice - it.actualPrice := by
  simp only [parseLine] at hok
  split at hok
  · injection hok with h
    rw [← h]
    exact hst
  · split at hok
    · split at hok
      · split at hok
        · injection hok with h
          rw [← h]
          exact hst
        · injection hok with h
          rw [← h]
          exact hst
      · injection hok with h
        rw [← h]
        exact hst
    · split at hok
      · injection hok with h
        rw [← h]
        exact hst
      · split at hok
        · split at hok
          · have := handlePfand_items _ _ _ _ _ hok
            intro it hit
            rw [this] at hit
            exact hst it hit
          · injection hok with h
            rw [← h]
            exact hst
        · split at hok
          · obtain ⟨it0, hitems, hdisc⟩ := handleItem_items _ _ _ _ _ _ hok
            intro it hit
            rw [hitems] at hit
            rcases List.mem_append.mp hit with hmem | hmem
            · exact hst it hmem
            · rw [List.mem_singleton.mp hmem]
              exact hdisc
          · injection hok with h
            rw [← h]
            exact hst

theorem parseLines_discount_invariant (todayStr : String) (table : List RateRow) :
    ∀ (lines : List String) (st st' : ParseSt),
      parseLines todayStr table lines st = .ok st' →
      (∀ it ∈ st.items, it.discount = it.standardPrice - it.actualPrice) →
      ∀ it ∈ st'.items, it.discount = it.standardPrice - it.actualPrice
  | [], st, st', hok, hst => by
    injection hok with h
    rw [← h]
    exact hst
  | lraw :: ls, st, st', hok, hst => by
    simp only [parseLines] at hok
    split at hok
    · exact Except.noConfusion hok
    · exact parseLines_discount_invariant todayStr table ls _ st' hok
        (parseLine_discount_invariant todayStr table st _ _ (by assumption) hst)

/-- C6: a purchase line `name >> p` yields an item with
`standardPrice = actualPrice = p` and zero discount; a line
`name >> s :: a` yields `standardPrice = s`, `actualPrice = a`,
`discount = s - a`; and every item any parsed block produces satisfies
`discount = standardPrice - actualPrice`. -/
theorem purchase_line_price_fields :
    (∀ (todayStr : String) (table : List RateRow) (st : ParseSt)
        (raw l r : String) (rest : List String) (p q : ℚ),
      st.inMeta = false → myTrim raw ≠ "---" →
      myStartsWith (myTrim raw) "## " = false →
      (myStartsWith (myTrim raw) "Pfand" && strContains (myTrim raw) "<<") = false →
      strSplitOn (myTrim raw) ">>" = l :: r :: rest →
      strContains (myTrim r) "::" = false →
      pyFloat (myTrim r) = some p →
      get_exchange_rate table (metaGetD st.meta "币种" "EUR")
        (metaGetD st.meta "日期" todayStr) = .ok q →
      ∃ it st', parseLine todayStr table st raw = .ok st' ∧
        st'.items = st.items ++ [it] ∧
        it.standardPrice = p ∧ it.actualPrice = p ∧ it.discount = 0) ∧
    (∀ (todayStr : String) (table : List RateRow) (st : ParseSt)
        (raw l r r0 r1 : String) (rest rrest : List String) (s a q : ℚ),
      st.inMeta = false → myTrim raw ≠ "---" →
      myStartsWith (myTrim raw) "## " = false →
      (myStartsWith (myTrim raw) "Pfand" && strContains (myTrim raw) "<<") = false →
      strSplitOn (myTrim raw) ">>" = l :: r :: rest →
      strContains (myTrim r) "::" = true →
      strSplitOn (myTrim r) "::" = r0 :: r1 :: rrest →
      pyFloat (myTrim r0) = some s →
      pyFloat (myTrim r1) = some a →
      get_exchange_rate table (metaGetD st.meta "币种" "EUR")
        (metaGetD st.meta "日期" todayStr) = .ok q →
      ∃ it st', parseLine todayStr table st raw = .ok st' ∧
        st'.items = st.items ++ [it] ∧
        it.standardPrice = s ∧ it.actualPrice = a ∧ it.discount = s - a) ∧
    (∀ (todayStr : String) (table : List RateRow)
        (products : List (String × Product)) (deposits : List (String × Nat))
        (counter : Nat) (text : String) (res : PRes),
      parse_input_text todayStr table products deposits counter text = .ok res →
      ∀ it ∈ res.items, it.discount = it.standardPrice - it.actualPrice) := by
  refine ⟨?_, ?_, ?_⟩
  · intro todayStr table st raw l r rest p q h0 h1 h2 h3 h4 hnc hp hq
    rw [parseLine_item_route todayStr table st raw l r rest h0 h1 h2 h3 h4]
    exact handleItem_single todayStr table st l r p q hnc hp hq
  · intro todayStr table st raw l r r0 r1 rest rrest s a q h0 h1 h2 h3 h4 hc hsp hs ha hq
    rw [parseLine_item_route todayStr table st raw l r rest h0 h1 h2 h3 h4]
    exact handleItem_two todayStr table st l r r0 r1 rrest s a q hc hsp hs ha hq
  · intro todayStr table products deposits counter text res hok
    unfold parse_input_text at hok
    split at hok
    · exact Except.noConfusion hok
    · injection hok with h
      rw [← h]
      refine parseLines_discount_invariant todayStr table _ _ _ (by assumption) ?_
      intro it hit
      exact absurd hit (List.not_mem_nil it)

/-- Witness for C6 at concrete lines `Apfel >> 2` and `x >> 3 :: 2`
against the seeded table, starting from the empty parse state. -/
theorem purchase_line_price_fields_witness :
    (∃ it st', parseLine "2025-10-12" rates0
        ⟨false, [], "", [], [], [], [], 0⟩ "Apfel >> 2" = .ok st' ∧
      st'.items = (⟨false, [], "", [], [], [], [], 0⟩ : ParseSt).items ++ [it] ∧
      it.standardPrice = 2 ∧ it.actualPrice = 2 ∧ it.discount = 0) ∧
    (∃ it st', parseLine "2025-10-12" rates0
        ⟨false, [], "", [], [], [], [], 0⟩ "x >> 3 :: 2" = .ok st' ∧
      st'.items = (⟨false, [], "", [], [], [], [], 0⟩ : ParseSt).items ++ [it] ∧
      it.standardPrice = 3 ∧ it.actualPrice = 2 ∧ it.discount = 3 - 2) := by
  constructor
  · exact purchase_line_price_fields.1 "2025-10-12" rates0
      ⟨false, [], "", [], [], [], [], 0⟩ "Apfel >> 2" "Apfel " " 2" [] 2 1
      rfl (by decide) (by decide) (by decide) (by decide) (by decide) (by decide)
      (by decide)
  · exact purchase_line_price_fields.2.1 "2025-10-12" rates0
      ⟨false, [], "", [], [], [], [], 0⟩ "x >> 3 :: 2" "x " " 3 :: 2" "3 " " 2" [] []
      3 2 1 rfl (by decide) (by decide) (by decide) (by decide) (by decide)
      (by decide) (by decide) (by decide) (by decide)

/-- C7 counterexample: the block `x >> 1 :: 2` (actual price above
standard price) parses successfully into an accepted item with
`standardPrice = 1 < actualPrice = 2` — no malformed-input condition is
raised, the item is committed like any other. -/
theorem negative_discount_accepted :
    (parse_input_text "2025-10-12" rates0 [] [] 0 "x >> 1 :: 2").map
        (fun res => res.items.map (fun it => (it.name, it.standardPrice, it.actualPrice))) =
      .ok [("x", 1, 2)] ∧ (1 : ℚ) < 2 :=
  ⟨by decide, by norm_num⟩

/-- C7 amended: a purchase line `name >> s :: a` with `a > s` is
accepted silently: the parser appends an ordinary item with
`standardPrice = s`, `actualPrice = a` and the negative discount
`s - a`, rather than treating the line as malformed. -/
theorem negative_discount_passes_through (todayStr : String) (table : List RateRow)
    (st : ParseSt) (raw l r r0 r1 : String) (rest rrest : List String) (s a q : ℚ)
    (h0 : st.inMeta = false) (h1 : myTrim raw ≠ "---")
    (h2 : myStartsWith (myTrim raw) "## " = false)
    (h3 : (myStartsWith (myTrim raw) "Pfand" && strContains (myTrim raw) "<<") = false)
    (h4 : strSplitOn (myTrim raw) ">>" = l :: r :: rest)
    (hc : strContains (myTrim r) "::" = true)
    (hsp : strSplitOn (myTrim r) "::" = r0 :: r1 :: rrest)
    (hs : pyFloat (myTrim r0) = some s)
    (ha : pyFloat (myTrim r1) = some a)
    (hq : get_exchange_rate table (metaGetD st.meta "币种" "EUR")
      (metaGetD st.meta "日期" todayStr) = .ok q)
    (hgt : s < a) :
    ∃ it st', parseLine todayStr table st raw = .ok st' ∧
      st'.items = st.items ++ [it] ∧
      it.standardPrice = s ∧ it.actualPrice = a ∧
      it.discount = s - a ∧ it.discount < 0 := by
  rw [parseLine_item_route todayStr table st raw l r rest h0 h1 h2 h3 h4]
  obtain ⟨it, st', hok, hitems, hstd, hact, hdisc⟩ :=
    handleItem_two todayStr table st l r r0 r1 rrest s a q hc hsp hs ha hq
  exact ⟨it, st', hok, hitems, hstd, hact, hdisc, by rw [hdisc]; exact sub_neg.mpr hgt⟩

/-- Witness for the amended C7 statement at the concrete line
`x >> 1 :: 2`. -/
theorem negative_discount_passes_through_witness :
    ∃ it st', parseLine "2025-10-12" rates0
        ⟨false, [], "", [], [], [], [], 0⟩ "x >> 1 :: 2" = .ok st' ∧
      st'.items = (⟨false, [], "", [], [], [], [], 0⟩ : ParseSt).items ++ [it] ∧
      it.standardPrice = 1 ∧ it.actualPrice = 2 ∧
      it.discount = 1 - 2 ∧ it.discount < 0 :=
  negative_discount_passes_through "2025-10-12" rates0
    ⟨false, [], "", [], [], [], [], 0⟩ "x >> 1 :: 2" "x " " 1 :: 2" "1 " " 2" [] []
    1 2 1 rfl (by decide) (by decide) (by decide) (by decide) (by decide)
    (by decide) (by decide) (by decide) (by decide) (by norm_num)

/-- C1 (code bug): submitting a block holding the deposit-return line
`Pfand (2) << 3.00` while three open deposit-bearing items sit in
inventory and the ledger holds 3.  The parser does recognise the line
(first conjunct: one deposit-return event with count 2), and the in-app
guide documents the syntax and the handler's success message reports the
return — but the submit handler derives no state change from the events:
the ledger stays at 3, no history record (in particular none with
`checkoutMode = pfand_return`, a string that appears nowhere in the
program) is written, and all three deposit-bearing items remain in
inventory, where the spec's state machine demands two of them move to
`CHECKED_OUT` and the ledger drop by 2. -/
theorem deposit_return_not_applied :
    (parse_input_text "2025-10-12" rates0 store0.products store0.deposits
        store0.counter c1text).map
      (fun res => res.depositReturns.map (fun dr => (dr.count, dr.date))) =
      .ok [(2, "2025-10-12")] ∧
    (submit_inbound "2025-10-12" rates0 store0 c1text).map
      (fun s => (s.deposits, s.hist,
        (s.inv.filter (fun it => it.name = "Pfand Flasche")).length)) =
      .ok ([("Pfand Flasche", 3)], [], 3) :=
  ⟨by decide, by decide⟩

theorem parseDate_ok_valid {s : String} {d : Date} (h : parseDate s = .ok d) :
    Date.validB d.year d.month d.day = true := by
  unfold parseDate at h
  split at h
  · split at h
    · split at h
      · injection h with h
        subst h
        assumption
      · exact Except.noConfusion h
    · exact Except.noConfusion h
  · exact Except.noConfusion h

theorem histOf_ok {today : Date} {old : PItem} {e : HistItem}
    (h : histOf today old = .ok e) :
    e.item = old ∧ e.checkoutDate = dateToStr today ∧ e.utilization = 100 ∧
      e.checkoutMode = "subscription_auto" ∧
      ∀ pd, parseDate old.purchaseDate = .ok pd →
        e.daysInService = ordinal today - ordinal pd := by
  unfold histOf at h
  cases hpd : parseDate old.purchaseDate with
  | error er => rw [hpd] at h; exact Except.noConfusion h
  | ok pd0 =>
    rw [hpd] at h
    injection h with h
    subst h
    refine ⟨rfl, rfl, rfl, rfl, fun pd hpd2 => ?_⟩
    have h2 : pd0 = pd := by injection hpd2
    show ordinal today - ordinal pd0 = ordinal today - ordinal pd
    rw [h2]

theorem mapExcept_ok_forall {α β : Type} {f : α → Except Err β} :
    ∀ {l : List α} {es : List β}, mapExcept f l = .ok es →
      ∀ a ∈ l, ∃ e ∈ es, f a = .ok e := by
  intro l
  induction l with
  | nil => intro es _ a ha; exact absurd ha (List.not_mem_nil a)
  | cons x t ih =>
    intro es hok a ha
    simp only [mapExcept] at hok
    cases hfx : f x with
    | error er => rw [hfx] at hok; exact Except.noConfusion hok
    | ok b =>
      rw [hfx] at hok
      cases hmt : mapExcept f t with
      | error er => rw [hmt] at hok; exact Except.noConfusion hok
      | ok bs =>
        rw [hmt] at hok
        injection hok with h
        subst h
        rcases List.mem_cons.mp ha with rfl | hmem
        · exact ⟨b, List.mem_cons_self b bs, hfx⟩
        · obtain ⟨e, he, hfe⟩ := ih hmt a hmem
          exact ⟨e, List.mem_cons_of_mem b he, hfe⟩

theorem mapExcept_ok_mem {α β : Type} {f : α → Except Err β} :
    ∀ {l : List α} {es : List β}, mapExcept f l = .ok es →
      ∀ e ∈ es, ∃ a ∈ l, f a = .ok e := by
  intro l
  induction l with
  | nil =>
    intro es hok e he
    injection hok with h
    subst h
    exact absurd he (List.not_mem_nil e)
  | cons x t ih =>
    intro es hok e he
    simp only [mapExcept] at hok
    cases hfx : f x with
    | error er => rw [hfx] at hok; exact Except.noConfusion hok
    | ok b =>
      rw [hfx] at hok
      cases hmt : mapExcept f t with
      | error er => rw [hmt] at hok; exact Except.noConfusion hok
      | ok bs =>
        rw [hmt] at hok
        injection hok with h
        subst h
        rcases List.mem_cons.mp he with rfl | hmem
        · exact ⟨x, List.mem_cons_self x t, hfx⟩
        · obtain ⟨a, ha, hfa⟩ := ih hmt e hmem
          exact ⟨a, List.mem_cons_of_mem x ha, hfa⟩

theorem lookup_append_of_not_mem {β : Type} (k : String)
    (l₁ l₂ : List (String × β)) (h : k ∉ l₁.map Prod.fst) :
    (l₁ ++ l₂).lookup k = l₂.lookup k := by
  induction l₁ with
  | nil => rfl
  | cons p t ih =>
    obtain ⟨a, b⟩ := p
    simp only [List.map_cons, List.mem_cons] at h
    push_neg at h
    rw [List.cons_append]
    have hbeq : (k == a) = false := by
      simp only [beq_eq_false_iff_ne, ne_eq]
      exact h.1
    simp only [List.lookup, hbeq]
    exact ih h.2

theorem lookup_cons_self {β : Type} (k : String) (v : β) (l : List (String × β)) :
    ((k, v) :: l).lookup k = some v := by
  simp [List.lookup]

theorem removeByIds_eq_filter_all : ∀ (os l : List PItem),
    removeByIds os l = l.filter (fun it => decide (∀ o ∈ os, it.id ≠ o.id)) := by
  intro os
  induction os with
  | nil =>
    intro l
    have hall : ∀ x ∈ l, (decide (∀ o ∈ ([] : List PItem), x.id ≠ o.id)) = true :=
      fun x _ => by simp
    exact (List.filter_eq_self.mpr hall).symm
  | cons o os ih =>
    intro l
    show removeByIds os (l.filter fun it => it.id ≠ o.id) = _
    rw [ih, List.filter_filter]
    refine List.filter_congr fun x _ => ?_
    simp only [List.forall_mem_cons, Bool.decide_and]
    exact Bool.and_comm _ _

theorem removeByIds_filter (l : List PItem) (P : PItem → Bool)
    (hnd : (l.map (fun it => it.id)).Nodup) :
    removeByIds (l.filter P) l = l.filter (fun it => !(P it)) := by
  rw [removeByIds_eq_filter_all]
  refine List.filter_congr fun x hx => ?_
  by_cases hpx : P x = true
  · have hxf : x ∈ l.filter P := List.mem_filter.mpr ⟨hx, hpx⟩
    have hnall : ¬(∀ o ∈ l.filter P, x.id ≠ o.id) := fun hall => hall x hxf rfl
    rw [hpx, Bool.not_true]
    exact decide_eq_false hnall
  · have hpx' : P x = false := by revert hpx; cases P x <;> simp
    have hall : ∀ o ∈ l.filter P, x.id ≠ o.id := by
      intro o ho hid
      obtain ⟨hol, hpo⟩ := List.mem_filter.mp ho
      have hxo : x = o := List.inj_on_of_nodup_map hnd hx hol hid
      rw [hxo] at hpx'
      rw [hpx'] at hpo
      exact Bool.noConfusion hpo
    rw [hpx', Bool.not_false]
    exact decide_eq_true hall

/-- With distinct inventory ids and a fresh renewal id, the archived
rows are exactly the previously open rows with the subscription's
name. -/
theorem oldsOf_eq (inv : List PItem) (name : String) (newItem : PItem)
    (hfresh : ∀ it ∈ inv, it.id ≠ newItem.id)
    (hname : newItem.name = name) :
    oldsOf inv name newItem = inv.filter (fun it => it.name = name) := by
  unfold oldsOf
  rw [List.filter_append]
  have hsingle : [newItem].filter
      (fun it => decide (it.name = name ∧ it.id ≠ newItem.id)) = [] := by
    simp
  rw [hsingle, List.append_nil]
  refine List.filter_congr fun x hx => ?_
  have : x.id ≠ newItem.id := hfresh x hx
  simp [this]

/-- With distinct inventory ids and a fresh renewal id, the archive
loop's removals leave exactly the rows of other names plus the fresh
item. -/
theorem renewRemove_eq (inv : List PItem) (name : String) (newItem : PItem)
    (hnd : (inv.map (fun it => it.id)).Nodup)
    (hfresh : ∀ it ∈ inv, it.id ≠ newItem.id)
    (hname : newItem.name = name) :
    renewRemove inv name newItem =
      inv.filter (fun it => ¬(it.name = name)) ++ [newItem] := by
  unfold renewRemove oldsOf
  have hnd1 : ((inv ++ [newItem]).map (fun it => it.id)).Nodup := by
    rw [List.map_append]
    rw [List.nodup_append]
    refine ⟨hnd, by simp, ?_⟩
    intro a ha hb
    simp only [List.map_cons, List.map_nil, List.mem_cons, List.not_mem_nil,
      or_false] at hb
    obtain ⟨x, hx, hxa⟩ := List.mem_map.mp ha
    exact hfresh x hx (by rw [hxa, hb])
  rw [removeByIds_filter _ _ hnd1, List.filter_append]
  congr 1
  · refine List.filter_congr fun x hx => ?_
    have : x.id ≠ newItem.id := hfresh x hx
    simp [this]
  · simp [hname]

theorem advanceNext_M {info : SubRec} {nd : Date} {info' : SubRec}
    (hper : info.period = "M") (hm1 : 1 ≤ nd.month) (hm2 : nd.month ≤ 12)
    (hok : advanceNext info nd = .ok info') :
    ∀ d, pyNat info.day = some d →
      info' = { info with nextDate := dateToStr (monthlySpecNext nd d) } := by
  intro d hd
  unfold advanceNext at hok
  rw [if_pos hper] at hok
  simp only [hd] at hok
  rw [addDays_month_step nd.year nd.month hm1 hm2] at hok
  cases hrd : replaceDay
      ⟨if nd.month = 12 then nd.year + 1 else nd.year,
       if nd.month = 12 then 1 else nd.month + 1,
       33 - daysInMonth nd.year nd.month⟩ d with
  | none =>
    rw [hrd] at hok
    exact Except.noConfusion hok
  | some nd' =>
    obtain ⟨hv, hnd'⟩ := replaceDay_some hrd
    rw [hrd] at hok
    injection hok with h
    rw [← h, hnd']
    unfold monthlySpecNext
    by_cases h12 : nd.month = 12 <;> simp [h12]

theorem advanceNext_Y {info : SubRec} {nd : Date} {info' : SubRec}
    (hper : info.period = "Y") (hok : advanceNext info nd = .ok info') :
    ∀ mo d, pyNat (strTake info.day 2) = some mo →
      pyNat (strDrop info.day 2) = some d →
      info' = { info with nextDate := dateToStr (⟨nd.year + 1, mo, d⟩ : Date) } := by
  intro mo d hmo hd
  unfold advanceNext at hok
  have hMne : ¬(info.period = "M") := by
    rw [hper]
    intro h
    exact absurd h (by decide)
  rw [if_neg hMne, if_pos hper] at hok
  simp only [hmo, hd] at hok
  cases hr : replaceYMD nd (nd.year + 1) mo d with
  | none =>
    rw [hr] at hok
    exact Except.noConfusion hok
  | some nd' =>
    obtain ⟨hv, hnd'⟩ := replaceYMD_some hr
    rw [hr] at hok
    injection hok with h
    rw [← h, hnd']

/-- The non-due iteration: the entry passes through to the output dict
and nothing else changes. -/
theorem stepSub_not_due (today : Date) (table : List RateRow) (st : RunSt)
    (name : String) (info : SubRec) (nd : Date) (st' : RunSt)
    (hparse : parseDate info.nextDate = .ok nd)
    (hdue : dle nd today = false)
    (hok : stepSub today table st (name, info) = .ok st') :
    st' = { st with outSubs := st.outSubs ++ [(name, info)] } := by
  unfold stepSub at hok
  simp only [hparse, hdue, Bool.false_eq_true, if_false] at hok
  injection hok with h
  exact h.symm

/-- The due iteration, characterised: the rate lookup, the archive
records and the advanced entry all succeeded, the surviving inventory is
the other-named rows plus the fresh item, history grew by the archive
records, the output dict gained the advanced entry, and the name was
reported renewed. -/
theorem stepSub_due (today : Date) (table : List RateRow) (st : RunSt)
    (name : String) (info : SubRec) (nd : Date) (st' : RunSt)
    (hnd : (st.inv.map (fun it => it.id)).Nodup)
    (hlt : ∀ it ∈ st.inv, it.id < st.counter)
    (hparse : parseDate info.nextDate = .ok nd)
    (hdue : dle nd today = true)
    (hok : stepSub today table st (name, info) = .ok st') :
    ∃ rate entries info',
      get_exchange_rate table info.currency (dateToStr today) = .ok rate ∧
      mapExcept (histOf today) (st.inv.filter (fun it => it.name = name)) =
        .ok entries ∧
      advanceNext info nd = .ok info' ∧
      st' = ⟨st.inv.filter (fun it => ¬(it.name = name)) ++
               [mkRenewItem name info today rate st.counter],
             st.hist ++ entries,
             st.outSubs ++ [(name, info')],
             st.renewed ++ [name],
             st.counter + 1⟩ := by
  unfold stepSub at hok
  simp only [hparse, hdue, if_true] at hok
  cases hrate : get_exchange_rate table info.currency (dateToStr today) with
  | error er =>
    rw [hrate] at hok
    dsimp only at hok
    exact Except.noConfusion hok
  | ok rate =>
    rw [hrate] at hok
    dsimp only at hok
    have hfresh : ∀ it ∈ st.inv, it.id ≠
        (mkRenewItem name info today rate st.counter).id := by
      intro it hit
      exact Nat.ne_of_lt (hlt it hit)
    have holds : oldsOf st.inv name (mkRenewItem name info today rate st.counter) =
        st.inv.filter (fun it => it.name = name) :=
      oldsOf_eq st.inv name _ hfresh rfl
    rw [holds] at hok
    cases hmap : mapExcept (histOf today)
        (st.inv.filter (fun it => it.name = name)) with
    | error er =>
      rw [hmap] at hok
      dsimp only at hok
      exact Except.noConfusion hok
    | ok entries =>
      rw [hmap] at hok
      dsimp only at hok
      cases hadv : advanceNext info nd with
      | error er =>
        rw [hadv] at hok
        dsimp only at hok
        exact Except.noConfusion hok
      | ok info' =>
        rw [hadv] at hok
        dsimp only at hok
        injection hok with h
        refine ⟨rate, entries, info', rfl, rfl, rfl, ?_⟩
        rw [← h]
        rw [renewRemove_eq st.inv name _ hnd hfresh rfl]

theorem filter_not_name_filter_name (l : List PItem) (name : String) :
    (l.filter (fun it => ¬(it.name = name))).filter (fun it => it.name = name) = [] := by
  rw [List.filter_filter]
  refine List.filter_eq_nil_iff.mpr fun a _ => ?_
  by_cases h : a.name = name <;> simp [h]

theorem filter_name_frame (l : List PItem) (name n : String) (newItem : PItem)
    (hne : n ≠ name) (hnew : newItem.name = name) :
    ((l.filter (fun it => ¬(it.name = name))) ++ [newItem]).filter
        (fun it => it.name = n) = l.filter (fun it => it.name = n) := by
  rw [List.filter_append, List.filter_filter]
  have h1 : [newItem].filter (fun it => it.name = n) = [] := by
    simp [hnew, Ne.symm hne]
  rw [h1, List.append_nil]
  refine List.filter_congr fun x _ => ?_
  by_cases hx : x.name = n
  · have hxx : ¬(x.name = name) := by rw [hx]; exact hne
    simp [hx, hxx, hne]
  · simp [hx]


/-- The loop-level invariant of `check_subscriptions`: over any prefix
state with distinct inventory ids bounded by the counter and distinct
pending subscription names, a successful run gives every due
subscription its `DueOutcome`, only renews what it reports, appends to
history only archive records of renewed names, extends the output dict
by exactly the processed entries, and leaves inventories of unprocessed
names untouched. -/
theorem goSpec (today : Date) (table : List RateRow) :
    ∀ (subs : List (String × SubRec)) (st st' : RunSt),
      (st.inv.map (fun it => it.id)).Nodup →
      (∀ it ∈ st.inv, it.id < st.counter) →
      ((st.outSubs.map (fun p => p.1)) ++ subs.map (fun p => p.1)).Nodup →
      checkSubsGo today table subs st = .ok st' →
      ((∀ name info nd, (name, info) ∈ subs → parseDate info.nextDate = .ok nd →
          dle nd today = true → DueOutcome today st.inv name info nd st') ∧
       (∃ rnew htail,
          st'.renewed = st.renewed ++ rnew ∧
          st'.hist = st.hist ++ htail ∧
          (∀ it ∈ st.inv, it.name ∉ rnew → it ∈ st'.inv) ∧
          (∀ h ∈ htail, h.item.name ∈ rnew)) ∧
       (∃ stail, st'.outSubs = st.outSubs ++ stail ∧
          stail.map (fun p => p.1) = subs.map (fun p => p.1)) ∧
       (∀ n, n ∉ subs.map (fun p => p.1) →
          st'.inv.filter (fun it => it.name = n) =
            st.inv.filter (fun it => it.name = n)))
  | [], st, st', hndp, hlt, hnames, hok => by
    injection hok with h
    subst h
    refine ⟨?_, ⟨[], [], ?_, ?_, ?_, ?_⟩, ⟨[], ?_, rfl⟩, ?_⟩
    · intro name info nd hmem
      exact absurd hmem (List.not_mem_nil _)
    · rw [List.append_nil]
    · rw [List.append_nil]
    · intro it hit _
      exact hit
    · intro h hh
      exact absurd hh (List.not_mem_nil h)
    · rw [List.append_nil]
    · intro n _
      rfl
  | (name, info) :: rest, st, st', hndp, hlt, hnames, hok => by
    simp only [checkSubsGo] at hok
    cases hstep : stepSub today table st (name, info) with
    | error er => rw [hstep] at hok; exact Except.noConfusion hok
    | ok st₁ =>
      rw [hstep] at hok
      dsimp only at hok
      have hname_parts : name ∉ st.outSubs.map (fun p => p.1) ∧
          name ∉ rest.map (fun p => p.1) ∧
          ((st.outSubs.map (fun p => p.1)) ++ [name] ++
            rest.map (fun p => p.1)).Nodup := by
        rw [List.map_cons] at hnames
        obtain ⟨h1, h2, h3⟩ := List.nodup_append.mp hnames
        obtain ⟨h4, h5⟩ := List.nodup_cons.mp h2
        refine ⟨fun hmem => h3 hmem (List.mem_cons_self _ _), h4, ?_⟩
        rw [List.append_assoc]
        exact hnames
      obtain ⟨hnotA, hnotR, hnodup2⟩ := hname_parts
      cases hpd : parseDate info.nextDate with
      | error er =>
        exfalso
        unfold stepSub at hstep
        rw [hpd] at hstep
        exact Except.noConfusion hstep
      | ok nd0 =>
        cases hdue : dle nd0 today with
        | false =>
          have hst₁ : st₁ = { st with outSubs := st.outSubs ++ [(name, info)] } :=
            stepSub_not_due today table st name info nd0 st₁ hpd hdue hstep
          subst hst₁
          obtain ⟨ihDue, ⟨rnew, htail, ihRen, ihHist, ihFrame, ihTailNames⟩,
              ⟨stail, ihSubs, ihSubNames⟩, ihFilter⟩ :=
            goSpec today table rest
              { st with outSubs := st.outSubs ++ [(name, info)] } st' hndp hlt
              (by
                show ((st.outSubs ++ [(name, info)]).map (fun p => p.1) ++
                  rest.map (fun p => p.1)).Nodup
                rw [List.map_append]
                exact hnodup2) hok
          refine ⟨?_, ⟨rnew, htail, ihRen, ihHist, ihFrame, ihTailNames⟩,
              ⟨(name, info) :: stail, ?_, ?_⟩, ?_⟩
          · intro n i ndi hmem hp hd
            rcases List.mem_cons.mp hmem with heq | hmem2
            · exfalso
              injection heq with he1 he2
              subst he1
              subst he2
              rw [hpd] at hp
              injection hp with hpnd
              subst hpnd
              rw [hdue] at hd
              exact Bool.noConfusion hd
            · exact ihDue n i ndi hmem2 hp hd
          · rw [ihSubs]
            show (st.outSubs ++ [(name, info)]) ++ stail = _
            rw [List.append_assoc]
            rfl
          · rw [List.map_cons, ihSubNames, List.map_cons]
          · intro n hn
            rw [List.map_cons, List.mem_cons] at hn
            push_neg at hn
            exact ihFilter n hn.2
        | true =>
          obtain ⟨rate, entries, info', hrate, hmap, hadv, hst₁⟩ :=
            stepSub_due today table st name info nd0 st₁ hndp hlt hpd hdue hstep
          subst hst₁
          have hnd1 : ((st.inv.filter (fun it => ¬(it.name = name)) ++
              [mkRenewItem name info today rate st.counter]).map
                (fun it => it.id)).Nodup := by
            rw [List.map_append, List.nodup_append]
            refine ⟨((List.filter_sublist _).map _).nodup hndp, by simp, ?_⟩
            intro a ha hb
            simp only [List.map_cons, List.map_nil, List.mem_cons,
              List.not_mem_nil, or_false] at hb
            obtain ⟨x, hx, hxa⟩ := List.mem_map.mp ha
            have hxl : x ∈ st.inv := (List.mem_filter.mp hx).1
            have := hlt x hxl
            rw [← hxa] at hb
            show False
            rw [hb] at this
            exact Nat.lt_irrefl _ this
          have hlt1 : ∀ it ∈ (st.inv.filter (fun it => ¬(it.name = name)) ++
              [mkRenewItem name info today rate st.counter]), it.id < st.counter + 1 := by
            intro it hit
            rcases List.mem_append.mp hit with hmem | hmem
            · exact Nat.lt_succ_of_lt (hlt it (List.mem_filter.mp hmem).1)
            · rw [List.mem_singleton.mp hmem]
              exact Nat.lt_succ_self _
          obtain ⟨ihDue, ⟨rnew, htail, ihRen, ihHist, ihFrame, ihTailNames⟩,
              ⟨stail, ihSubs, ihSubNames⟩, ihFilter⟩ :=
            goSpec today table rest
              ⟨st.inv.filter (fun it => ¬(it.name = name)) ++
                 [mkRenewItem name info today rate st.counter],
               st.hist ++ entries, st.outSubs ++ [(name, info')],
               st.renewed ++ [name], st.counter + 1⟩ st' hnd1 hlt1
              (by
                show ((st.outSubs ++ [(name, info')]).map (fun p => p.1) ++
                  rest.map (fun p => p.1)).Nodup
                rw [List.map_append]
                exact hnodup2) hok
          have hmemN : ∀ it ∈ st.inv, it.name ≠ name → it ∈
              (st.inv.filter (fun it => ¬(it.name = name)) ++
                [mkRenewItem name info today rate st.counter]) := by
            intro it hit hne
            exact List.mem_append_left _
              (List.mem_filter.mpr ⟨hit, decide_eq_true hne⟩)
          refine ⟨?_, ⟨name :: rnew, entries ++ htail, ?_, ?_, ?_, ?_⟩,
              ⟨(name, info') :: stail, ?_, ?_⟩, ?_⟩
          · intro n i ndi hmem hp hd
            rcases List.mem_cons.mp hmem with heq | hmem2
            · -- the subscription processed at this step
              injection heq with he1 he2
              subst he1
              subst he2
              rw [hpd] at hp
              injection hp with hpnd
              subst hpnd
              obtain ⟨hy1, hy2, hm1, hm12, hd1, hd2⟩ :=
                validB_facts (parseDate_ok_valid hpd)
              refine ⟨?_, ?_, ?_, ?_, ?_⟩
              · rw [ihFilter n hnotR]
                show (((st.inv.filter (fun it => ¬(it.name = n)) ++
                    [mkRenewItem n i today rate st.counter]).filter
                      (fun it => it.name = n)).map itemCore) = _
                rw [List.filter_append, filter_not_name_filter_name]
                simp [mkRenewItem, itemCore]
              · intro it hit hnm pd hpdd
                have hitf : it ∈ st.inv.filter (fun it => it.name = n) :=
                  List.mem_filter.mpr ⟨hit, decide_eq_true hnm⟩
                obtain ⟨e, he, hfe⟩ := mapExcept_ok_forall hmap it hitf
                obtain ⟨hei, hec, heu, hem, hed⟩ := histOf_ok hfe
                refine ⟨e, ?_, hei, hem, heu, hec, hed pd hpdd⟩
                rw [ihHist]
                exact List.mem_append_left _ (List.mem_append_right _ he)
              · intro hperM d hdday
                have hinfo' := advanceNext_M hperM hm1 hm12 hadv d hdday
                rw [ihSubs]
                show ((st.outSubs ++ [(n, info')]) ++ stail).lookup n = _
                rw [List.append_assoc]
                show (st.outSubs ++ ((n, info') :: stail)).lookup n = _
                rw [lookup_append_of_not_mem n _ _ hnotA, lookup_cons_self,
                  hinfo']
              · intro hperY mo d hmo hdd
                have hinfo' := advanceNext_Y hperY hadv mo d hmo hdd
                rw [ihSubs]
                show ((st.outSubs ++ [(n, info')]) ++ stail).lookup n = _
                rw [List.append_assoc]
                show (st.outSubs ++ ((n, info') :: stail)).lookup n = _
                rw [lookup_append_of_not_mem n _ _ hnotA, lookup_cons_self,
                  hinfo']
              · rw [ihRen]
                show n ∈ (st.renewed ++ [n]) ++ rnew
                exact List.mem_append_left _
                  (List.mem_append_right _ (List.mem_singleton.mpr rfl))
            · -- a later subscription: its outcome relative to the
              -- pre-step inventory
              have hnne : n ≠ name := by
                intro he
                subst he
                exact hnotR (List.mem_map_of_mem (fun p => p.1) hmem2)
              obtain ⟨da, db, dm, dy, dr⟩ := ihDue n i ndi hmem2 hp hd
              refine ⟨da, ?_, dm, dy, dr⟩
              intro it hit hnm pd hpdd
              refine db it ?_ hnm pd hpdd
              refine hmemN it hit ?_
              rw [hnm]
              exact hnne
          · rw [ihRen]
            show (st.renewed ++ [name]) ++ rnew = _
            rw [List.append_assoc]
            rfl
          · rw [ihHist]
            show (st.hist ++ entries) ++ htail = _
            rw [List.append_assoc]
          · intro it hit hnm
            rw [List.mem_cons] at hnm
            push_neg at hnm
            exact ihFrame it (hmemN it hit hnm.1) hnm.2
          · intro h hh
            rcases List.mem_append.mp hh with hmem | hmem
            · obtain ⟨a, ha, hfa⟩ := mapExcept_ok_mem hmap h hmem
              obtain ⟨hei, _, _, _, _⟩ := histOf_ok hfa
              have han : a.name = name :=
                of_decide_eq_true (List.mem_filter.mp ha).2
              rw [List.mem_cons]
              left
              rw [hei, han]
            · exact List.mem_cons_of_mem _ (ihTailNames h hmem)
          · rw [ihSubs]
            show (st.outSubs ++ [(name, info')]) ++ stail = _
            rw [List.append_assoc]
            rfl
          · rw [List.map_cons, ihSubNames, List.map_cons]
          · intro n hn
            rw [List.map_cons, List.mem_cons] at hn
            push_neg at hn
            rw [ihFilter n hn.2]
            exact filter_name_frame st.inv name n _ hn.1 rfl

/-- C2: one invocation of the recurrence check gives every subscription
whose parsed next-due date has been reached its full due outcome —
exactly one remaining open instance of that name, fresh, dated today at
the subscription's price and currency; every previously open instance of
that name archived as `subscription_auto` with utilization 100 and its
own days-in-service; the stored next-due date advanced by one
anchor-preserving period from the previous next-due date — while items
of names that were not renewed survive, history only gains records of
renewed names, and inventories of names with no subscription entry are
untouched (no cross-contamination between subscription names). -/
theorem subscription_renewal_due (today : Date) (table : List RateRow)
    (subs : List (String × SubRec)) (inv : List PItem) (hist : List HistItem)
    (dep : List (String × Nat)) (counter : Nat)
    (inv' : List PItem) (hist' : List HistItem)
    (outSubs : List (String × SubRec)) (renewed : List String) (counter' : Nat)
    (hids : (inv.map (fun it => it.id)).Nodup)
    (hbound : ∀ it ∈ inv, it.id < counter)
    (hnames : (subs.map (fun p => p.1)).Nodup)
    (hok : check_subscriptions today table subs inv hist dep counter =
      .ok (inv', hist', outSubs, renewed, counter')) :
    (∀ name info nd, (name, info) ∈ subs →
        parseDate info.nextDate = .ok nd → dle nd today = true →
        DueOutcome today inv name info nd
          ⟨inv', hist', outSubs, renewed, counter'⟩) ∧
    (∀ it ∈ inv, it.name ∉ renewed → it ∈ inv') ∧
    (∀ h ∈ hist', h ∈ hist ∨ h.item.name ∈ renewed) ∧
    outSubs.map (fun p => p.1) = subs.map (fun p => p.1) ∧
    (∀ n, n ∉ subs.map (fun p => p.1) →
      inv'.filter (fun it => it.name = n) = inv.filter (fun it => it.name = n)) := by
  unfold check_subscriptions at hok
  cases hgo : checkSubsGo today table subs ⟨inv, hist, [], [], counter⟩ with
  | error er =>
    rw [hgo] at hok
    exact Except.noConfusion hok
  | ok st =>
    rw [hgo] at hok
    injection hok with h
    injection h with h1 h
    injection h with h2 h
    injection h with h3 h
    injection h with h4 h5
    subst h1
    subst h2
    subst h3
    subst h4
    subst h5
    obtain ⟨ihDue, ⟨rnew, htail, ihRen, ihHist, ihFrame, ihTailNames⟩,
        ⟨stail, ihSubs, ihSubNames⟩, ihFilter⟩ :=
      goSpec today table subs ⟨inv, hist, [], [], counter⟩ st hids hbound
        hnames hgo
    have hrnew : st.renewed = rnew := ihRen.trans (List.nil_append rnew)
    have hstail : st.outSubs = stail := ihSubs.trans (List.nil_append stail)
    refine ⟨ihDue, ?_, ?_, ?_, ihFilter⟩
    · intro it hit hnm
      refine ihFrame it hit ?_
      rw [← hrnew]
      exact hnm
    · intro h hh
      rw [ihHist] at hh
      rcases List.mem_append.mp hh with hm | hm
      · exact Or.inl hm
      · rw [hrnew]
        exact Or.inr (ihTailNames h hm)
    · rw [hstail, ihSubNames]

set_option maxRecDepth 100000 in
/-- A due monthly subscription renewed at a concrete snapshot: on
2025-10-12, the `Crunchyroll` subscription (anchor day 25, next due
2025-09-25, price 7 EUR) with one open instance purchased 2025-09-25
yields exactly one fresh open instance dated 2025-10-12 at 7 EUR, the
old instance archived as `subscription_auto` with utilization 100 and 17
days in service, and the stored next-due date 2025-10-25. -/
theorem subscription_renewal_due_witness :
    DueOutcome today0 [old0] "Crunchyroll" sub0 ⟨2025, 9, 25⟩
      ⟨[mkRenewItem "Crunchyroll" sub0 today0 1 1],
       [⟨old0, "2025-10-12", 100, "subscription_auto", 17⟩],
       [("Crunchyroll", { sub0 with nextDate := "2025-10-25" })],
       ["Crunchyroll"], 2⟩ :=
  (subscription_renewal_due today0 rates0 [("Crunchyroll", sub0)] [old0] [] [] 1
      [mkRenewItem "Crunchyroll" sub0 today0 1 1]
      [⟨old0, "2025-10-12", 100, "subscription_auto", 17⟩]
      [("Crunchyroll", { sub0 with nextDate := "2025-10-25" })]
      ["Crunchyroll"] 2
      (by decide) (by decide) (by decide) (by rfl)).1
    "Crunchyroll" sub0 ⟨2025, 9, 25⟩ (List.mem_cons_self _ _) rfl rfl
